import Mathlib

/-!
Verification of the clifford geometric-algebra engine exercised by the
repository's example notebooks (`QuickStartG2.ipynb`,
`Example 1 Interpolating Conformal Objects.ipynb`).

The repository ships only the notebooks; the engine itself (Layout
construction, MultiVector arithmetic, exponential/logarithm, conformal
tools) is described in the specification.  Every definition below whose
doc comment starts with `Modelled from the spec:` embeds that described
behaviour: basis blades are bitmasks over the basis vectors, the
geometric product of two basis blades is their xor together with a sign
made of the transposition parity of interleave-sorting the two masks and
the metric factors of the repeated basis vectors, and the outer/inner
products are the grade-filtered variants of the same table.
-/

namespace Clifford

/-- Modelled from the spec: the grade of a blade is the popcount of its
bitmask — the number of basis vectors present (bits below the dimension `n`). -/
def grade (n m : Nat) : Nat :=
  ((Finset.range n).filter (fun i => m.testBit i)).card

/-- Modelled from the spec: the number of transpositions needed to
interleave-sort the concatenation of blade `a`'s and blade `b`'s basis
vectors into canonical ascending order: one transposition for every pair
(i, j) with basis vector i present in `a`, j present in `b`, and j < i. -/
def flips (n a b : Nat) : Nat :=
  ∑ i ∈ Finset.range n, ∑ j ∈ Finset.range n,
    if a.testBit i ∧ b.testBit j ∧ j < i then 1 else 0

/-- Modelled from the spec: the permutation-parity sign of the
interleave-sort of blades `a` and `b`. -/
def reorderSign (n a b : Nat) : ℤ := (-1) ^ flips n a b

/-- Modelled from the spec: the product of the metric signature entries of
the basis vectors present in mask `m` (each repeated basis vector of a
blade product contracts via its metric value). -/
def metricProd (sig : List ℤ) (m : Nat) : ℤ :=
  ∏ i ∈ Finset.range sig.length, if m.testBit i then sig.getD i 1 else 1

/-- Modelled from the spec: the signed multiplier stored in the
geometric-product table for the ordered blade pair (a, b): reorder parity
times the metric factors of the basis vectors present in both masks. -/
def gpSign (sig : List ℤ) (a b : Nat) : ℤ :=
  reorderSign sig.length a b * metricProd sig (a &&& b)

/-- Modelled from the spec: a MultiVector over an n-dimensional layout is a
coefficient vector indexed by the 2^n basis blades (blade = bitmask). -/
abbrev MultiVector (n : Nat) (R : Type) := Fin (2 ^ n) → R

/-- xor of two blade bitmasks, staying inside the 2^n blades of the layout:
the blade index produced by the geometric-product table. -/
def bxor {n : Nat} (a b : Fin (2 ^ n)) : Fin (2 ^ n) :=
  ⟨a.val ^^^ b.val, Nat.xor_lt_two_pow a.isLt b.isLt⟩

/-- The basis blade with bitmask `m`: coefficient 1 there, 0 elsewhere. -/
def bb {n : Nat} {R : Type} [CommRing R] (m : Fin (2 ^ n)) : MultiVector n R :=
  fun k => if k = m then 1 else 0

/-- The scalar multivector `r` (coefficient `r` on the empty blade). -/
def scl {n : Nat} {R : Type} [CommRing R] (r : R) : MultiVector n R :=
  fun k => if k.val = 0 then r else 0

/-- Modelled from the spec: geometric product `A*B` — for every coefficient
pair (a at blade i, b at blade j) look up the table entry (their xor and the
sign) and accumulate `sign*a*b` into the result's coefficient there. -/
def gp {n : Nat} {R : Type} [CommRing R] (sig : List ℤ)
    (x y : MultiVector n R) : MultiVector n R :=
  fun k => ∑ a : Fin (2 ^ n), ∑ b : Fin (2 ^ n),
    if bxor a b = k then (gpSign sig a.val b.val : R) * x a * y b else 0

/-- Modelled from the spec: outer product `A^B` — the same accumulation
loop, keeping only table entries whose result grade is the sum of the
operand grades. -/
def op {n : Nat} {R : Type} [CommRing R] (sig : List ℤ)
    (x y : MultiVector n R) : MultiVector n R :=
  fun k => ∑ a : Fin (2 ^ n), ∑ b : Fin (2 ^ n),
    if bxor a b = k ∧ grade n (a.val ^^^ b.val) = grade n a.val + grade n b.val
    then (gpSign sig a.val b.val : R) * x a * y b else 0

/-- Modelled from the spec: inner (contraction) product `A|B` — the same
accumulation loop, keeping only table entries whose result grade is the
absolute difference of the operand grades. -/
def ip {n : Nat} {R : Type} [CommRing R] (sig : List ℤ)
    (x y : MultiVector n R) : MultiVector n R :=
  fun k => ∑ a : Fin (2 ^ n), ∑ b : Fin (2 ^ n),
    if bxor a b = k ∧
        (grade n (a.val ^^^ b.val) : ℤ) = |(grade n a.val : ℤ) - (grade n b.val : ℤ)|
    then (gpSign sig a.val b.val : R) * x a * y b else 0

/-- Modelled from the spec: reverse `~A` — negate the coefficients of the
blades whose grade k has k(k−1)/2 odd. -/
def reverse {n : Nat} {R : Type} [CommRing R] (x : MultiVector n R) :
    MultiVector n R :=
  fun k => (-1 : R) ^ (grade n k.val * (grade n k.val - 1) / 2) * x k

/-- Modelled from the spec: grade projection `⟨A⟩_k` — zero all coefficients
on blades whose grade differs from `g`. -/
def grade_projection {n : Nat} {R : Type} [CommRing R] (g : Nat)
    (x : MultiVector n R) : MultiVector n R :=
  fun k => if grade n k.val = g then x k else 0

/-- The index of the scalar blade. -/
def bzero (n : Nat) : Fin (2 ^ n) := ⟨0, Nat.two_pow_pos n⟩

/-- The metric signature [+1,+1] of the two-dimensional algebra G2 built by
`cf.Cl(2)` in the quick-start notebook. -/
def sigG2 : List ℤ := [1, 1]

/-- G2 basis vector e1 (bitmask 1). -/
def g2_e1 : MultiVector 2 ℝ := bb ⟨1, by norm_num⟩

/-- G2 basis vector e2 (bitmask 2). -/
def g2_e2 : MultiVector 2 ℝ := bb ⟨2, by norm_num⟩

/-- G2 basis bivector e12 (bitmask 3). -/
def g2_e12 : MultiVector 2 ℝ := bb ⟨3, by norm_num⟩

/-- The conformal signature [+1,+1,+1,+1,-1] of the (4,1) algebra imported by
`from clifford.g3c import *` in the interpolation notebook. -/
def sigC : List ℤ := [1, 1, 1, 1, -1]

/-- Blade index 1 (e1) in the 32-blade conformal layout. -/
def f1 : Fin (2 ^ 5) := ⟨1, by norm_num⟩

/-- Blade index 2 (e2). -/
def f2 : Fin (2 ^ 5) := ⟨2, by norm_num⟩

/-- Blade index 4 (e3). -/
def f4 : Fin (2 ^ 5) := ⟨4, by norm_num⟩

/-- Blade index 8 (e4). -/
def f8 : Fin (2 ^ 5) := ⟨8, by norm_num⟩

/-- Blade index 16 (e5). -/
def f16 : Fin (2 ^ 5) := ⟨16, by norm_num⟩

/-- Blade index 3 (e12). -/
def f3 : Fin (2 ^ 5) := ⟨3, by norm_num⟩

/-- Blade index 5 (e13). -/
def f5 : Fin (2 ^ 5) := ⟨5, by norm_num⟩

/-- Blade index 6 (e23). -/
def f6 : Fin (2 ^ 5) := ⟨6, by norm_num⟩

/-- Blade index 9 (e14). -/
def f9 : Fin (2 ^ 5) := ⟨9, by norm_num⟩

/-- Blade index 17 (e15). -/
def f17 : Fin (2 ^ 5) := ⟨17, by norm_num⟩

/-- Blade index 10 (e24). -/
def f10 : Fin (2 ^ 5) := ⟨10, by norm_num⟩

/-- Blade index 18 (e25). -/
def f18 : Fin (2 ^ 5) := ⟨18, by norm_num⟩

/-- Blade index 12 (e34). -/
def f12 : Fin (2 ^ 5) := ⟨12, by norm_num⟩

/-- Blade index 20 (e35). -/
def f20 : Fin (2 ^ 5) := ⟨20, by norm_num⟩

/-- CGA basis vector e1 (bitmask 1). -/
def cga_e1 : MultiVector 5 ℝ := bb f1

/-- CGA basis vector e2 (bitmask 2). -/
def cga_e2 : MultiVector 5 ℝ := bb f2

/-- CGA basis vector e3 (bitmask 4). -/
def cga_e3 : MultiVector 5 ℝ := bb f4

/-- CGA basis vector e4 (bitmask 8). -/
def cga_e4 : MultiVector 5 ℝ := bb f8

/-- CGA basis vector e5 (bitmask 16). -/
def cga_e5 : MultiVector 5 ℝ := bb f16

/-- Modelled from the spec: the conformal null vector e∞, built from the two
added basis vectors of the (n+1,1) signature (e∞ = e4 + e5, which squares
to zero). -/
def einf : MultiVector 5 ℝ := cga_e4 + cga_e5

/-- Modelled from the spec: the conformal null vector e₀
(e₀ = (e5 − e4)/2, null, with e∞·e₀ = −1). -/
noncomputable def eo : MultiVector 5 ℝ := (2⁻¹ : ℝ) • (cga_e5 - cga_e4)

/-- A Euclidean 3-vector embedded on the e1,e2,e3 components of the
conformal layout. -/
def euc (x1 x2 x3 : ℝ) : MultiVector 5 ℝ :=
  x1 • cga_e1 + x2 • cga_e2 + x3 • cga_e3

/-- Modelled from the spec: `up(x) = x + ½|x|²·e∞ + e₀`, the conformal
embedding of the Euclidean vector x. -/
noncomputable def up (x1 x2 x3 : ℝ) : MultiVector 5 ℝ :=
  euc x1 x2 x3 + ((x1 ^ 2 + x2 ^ 2 + x3 ^ 2) / 2) • einf + eo

/-- The e∞ coefficient of a conformal point, recovered as the scalar
−(P·e∞): the coefficient `down` divides out. -/
def einfCoeff (P : MultiVector 5 ℝ) : ℝ := -(ip sigC P einf (bzero 5))

/-- The Euclidean grade-1 components of a conformal multivector. -/
def euclidPart (P : MultiVector 5 ℝ) : MultiVector 5 ℝ :=
  fun k => if k = f1 ∨ k = f2 ∨ k = f4 then P k else 0

/-- Modelled from the spec: `down(P)` recovers the Euclidean vector from a
conformal point by dividing out the e∞ coefficient and keeping the Euclidean
components. -/
noncomputable def down (P : MultiVector 5 ℝ) : MultiVector 5 ℝ :=
  euclidPart ((einfCoeff P)⁻¹ • P)

/-- A general grade-1 vector of the conformal layout in blade coordinates. -/
def cvec (p1 p2 p3 p4 p5 : ℝ) : MultiVector 5 ℝ :=
  p1 • bb f1 + p2 • bb f2 + p3 • bb f4 + p4 • bb f8 + p5 • bb f16

/-- A general Euclidean bivector of the conformal layout in blade
coordinates (the e12, e13, e23 components). -/
def ebiv (b12 b13 b23 : ℝ) : MultiVector 5 ℝ :=
  b12 • bb f3 + b13 • bb f5 + b23 • bb f6

/-- Modelled from the spec: magnitude `sqrt(|⟨A·~A⟩₀|)`. -/
noncomputable def magnitude (X : MultiVector 5 ℝ) : ℝ :=
  Real.sqrt |gp sigC X (reverse X) (bzero 5)|

/-- Modelled from the spec: `normal()` rescales by the reciprocal of the
magnitude. -/
noncomputable def normal (X : MultiVector 5 ℝ) : MultiVector 5 ℝ :=
  (magnitude X)⁻¹ • X

/-- Modelled from the spec: the exponential of a bivector B: writing
`B*B = −θ²` (a scalar for a simple bivector), `exp(B) = cos θ + sin θ/θ · B`;
when θ is degenerate (zero) a truncated power series `1 + B + B²/2` is used
instead, avoiding the division by zero. -/
noncomputable def expMv (B : MultiVector 5 ℝ) : MultiVector 5 ℝ :=
  if gp sigC B B (bzero 5) < 0 then
    Real.cos (Real.sqrt (-gp sigC B B (bzero 5))) • scl 1 +
      (Real.sin (Real.sqrt (-gp sigC B B (bzero 5))) /
        Real.sqrt (-gp sigC B B (bzero 5))) • B
  else scl 1 + B + (2⁻¹ : ℝ) • gp sigC B B

/-- A multivector supported on grade-2 blades only. -/
def isBivector (B : MultiVector 5 ℝ) : Prop :=
  ∀ k : Fin (2 ^ 5), grade 5 k.val ≠ 2 → B k = 0

open Classical in
/-- Modelled from the spec: `log` of a rotor is the inverse operation of
`exp`, recovering a generating bivector of the rotor (0 when none exists). -/
noncomputable def logRotor (Rr : MultiVector 5 ℝ) : MultiVector 5 ℝ :=
  if h : ∃ B, isBivector B ∧ expMv B = Rr then h.choose else 0

/-- The sandwich action `R * X * ~R` of a versor on an object. -/
def sandwich (Rr X : MultiVector 5 ℝ) : MultiVector 5 ℝ :=
  gp sigC (gp sigC Rr X) (reverse Rr)

open Classical in
/-- Modelled from the spec: the rigid-motion rotor (an exponential of a
bivector) carrying the conformal object L1 to L2 by the sandwich action; the
identity rotor when no such rotor exists. -/
noncomputable def rotor_between (L1 L2 : MultiVector 5 ℝ) : MultiVector 5 ℝ :=
  if h : ∃ B, isBivector B ∧ sandwich (expMv B) L1 = L2 then expMv h.choose
  else scl 1

/-- Modelled from the spec and the notebook's recorded outputs:
`interp_objects_root(L1, L2, alpha)` — geodesic interpolation along the
one-parameter subgroup of a rigid-motion rotor connecting the two objects.
The recorded interpolation trace starts at L2 (alpha = 0) and ends at L1
(alpha = 1), so the rotor applied is the one carrying L2 to L1:
`exp(alpha·log(R)) * L2 * ~exp(alpha·log(R))` with `R·L2·~R = L1`. -/
noncomputable def interp_objects_root (L1 L2 : MultiVector 5 ℝ) (alpha : ℝ) :
    MultiVector 5 ℝ :=
  sandwich (expMv (alpha • logRotor (rotor_between L2 L1))) L2

/-- Modelled from the notebook's recorded output: the translation rotor the
program returns is `1 − ½·d·e∞` (equivalently `1 + ½·e∞·d`) — its printed
bivector coefficients are −d_i/2 — with the displacement d conformalized
into the (4,1) algebra. -/
noncomputable def generate_translation_rotor (d1 d2 d3 : ℝ) : MultiVector 5 ℝ :=
  scl 1 - (2⁻¹ : ℝ) • gp sigC (euc d1 d2 d3) einf

/-- Modelled from the spec: the spec's words for the translation rotor,
`1 + ½·d·e∞`, kept for comparison with the program's recorded behaviour. -/
noncomputable def generate_translation_rotor_spec (d1 d2 d3 : ℝ) :
    MultiVector 5 ℝ :=
  scl 1 + (2⁻¹ : ℝ) • gp sigC (euc d1 d2 d3) einf

/-- Modelled from the spec: the Gram–Schmidt coefficient used to
orthogonalize the second plane vector against the first:
`(m·n)/(m·m)`. -/
noncomputable def gsCoeff (m1 m2 m3 n1 n2 n3 : ℝ) : ℝ :=
  (m1 * n1 + m2 * n2 + m3 * n3) / (m1 * m1 + m2 * m2 + m3 * m3)

/-- Modelled from the spec: the (unnormalized) bivector spanning the plane —
the outer product of the first plane vector with the orthogonalized second
(`n − ((m·n)/(m·m))·m`). -/
noncomputable def plane_biv (m1 m2 m3 n1 n2 n3 : ℝ) : MultiVector 5 ℝ :=
  op sigC (euc m1 m2 m3)
    (euc (n1 - gsCoeff m1 m2 m3 n1 n2 n3 * m1)
      (n2 - gsCoeff m1 m2 m3 n1 n2 n3 * m2)
      (n3 - gsCoeff m1 m2 m3 n1 n2 n3 * m3))

/-- Modelled from the notebook's recorded output: the rotation rotor the
program returns is `cos(θ/2) − sin(θ/2)·B̂ = exp(−θ/2 · B̂)` for the unit
bivector B̂ spanning the (orthogonalized) plane vectors. -/
noncomputable def generate_rotation_rotor (θ m1 m2 m3 n1 n2 n3 : ℝ) :
    MultiVector 5 ℝ :=
  expMv ((-(θ / 2)) • normal (plane_biv m1 m2 m3 n1 n2 n3))

/-- Modelled from the spec: the spec's words for the rotation rotor,
`exp(θ/2 · B̂)`, kept for comparison with the program's recorded
behaviour. -/
noncomputable def generate_rotation_rotor_spec (θ m1 m2 m3 n1 n2 n3 : ℝ) :
    MultiVector 5 ℝ :=
  expMv ((θ / 2) • normal (plane_biv m1 m2 m3 n1 n2 n3))

/-- Linear independence of two Euclidean plane vectors, in coordinates: only
the trivial combination vanishes. -/
def linIndep (m1 m2 m3 n1 n2 n3 : ℝ) : Prop :=
  ∀ a b : ℝ, a * m1 + b * n1 = 0 → a * m2 + b * n2 = 0 →
    a * m3 + b * n3 = 0 → a = 0 ∧ b = 0

/-- Modelled from the spec: the construction-time failures of
`build_layout`. -/
inductive LayoutError where
  | invalidSignature : LayoutError
  | unsupportedDimension : LayoutError
deriving DecidableEq

/-- Modelled from the spec: the practical dimension bound of the dense
tables (dense tables are O(4^n); n beyond ~10 requires sparse storage). -/
def maxDim : Nat := 10

/-- Modelled from the spec: a Layout holds the dimension, the signature and
the precomputed geometric-product table (result blade and signed multiplier
for every ordered pair of blade bitmasks). -/
structure Layout where
  dimension : Nat
  signature : List ℤ
  table : Nat → Nat → Nat × ℤ

/-- Modelled from the spec: `build_layout(signature)` — rejects signatures
with entries other than ±1 with `InvalidSignatureError and dimensions
beyond the practical bound with `UnsupportedDimensionError`; otherwise
builds the Layout with the complete geometric-product table. -/
def build_layout (sig : List ℤ) : Except LayoutError Layout :=
  if ¬ (∀ s ∈ sig, s = 1 ∨ s = -1) then Except.error LayoutError.invalidSignature
  else if maxDim < sig.length then Except.error LayoutError.unsupportedDimension
  else Except.ok ⟨sig.length, sig, fun a b => (a ^^^ b, gpSign sig a b)⟩

/-- Modelled from the spec: the canonical name of a blade — `e` followed by
the ascending 1-based indices of its basis vectors. -/
def bladeName (n m : Nat) : String :=
  "e" ++ String.join (((List.range n).filter (fun i => m.testBit i)).map
    (fun i => toString (i + 1)))

/-- The basis blade with (unbounded) bitmask `m`: coefficient 1 there,
0 elsewhere. -/
def bbm {n : Nat} {R : Type} [CommRing R] (m : Nat) : MultiVector n R :=
  fun k => if k.val = m then 1 else 0

/-- Modelled from the spec: the name → basis-blade mapping handed out at
construction (the `blades` dictionary): one entry per non-scalar blade,
keyed by the canonical name. -/
def bladesMap (n : Nat) (R : Type) [CommRing R] : List (String × MultiVector n R) :=
  ((List.range (2 ^ n)).filter (fun m => m != 0)).map
    (fun m => (bladeName n m, bbm m))

theorem bxor_cancel_left {n : Nat} (a b : Fin (2 ^ n)) : bxor a (bxor a b) = b := by
  apply Fin.ext
  exact Nat.xor_cancel_left a.val b.val

theorem bxor_val {n : Nat} (a b : Fin (2 ^ n)) : (bxor a b).val = a.val ^^^ b.val := rfl

theorem eq_bxor_of_bxor_eq {n : Nat} {a b k : Fin (2 ^ n)} (h : bxor a b = k) :
    b = bxor a k := by
  subst h
  exact (bxor_cancel_left a b).symm

/-- Collapsed form of the geometric product: for a fixed result blade `k`,
the second factor's blade is determined by the first's. -/
theorem gp_apply {n : Nat} {R : Type} [CommRing R] (sig : List ℤ)
    (x y : MultiVector n R) (k : Fin (2 ^ n)) :
    gp sig x y k =
      ∑ a : Fin (2 ^ n),
        (gpSign sig a.val (a.val ^^^ k.val) : R) * x a * y (bxor a k) := by
  unfold gp
  refine Finset.sum_congr rfl fun a _ => ?_
  rw [Finset.sum_eq_single (bxor a k)]
  · rw [if_pos (bxor_cancel_left a k), bxor_val]
  · intro b _ hb
    rw [if_neg]
    intro hc
    exact hb (eq_bxor_of_bxor_eq hc)
  · intro h
    exact absurd (Finset.mem_univ _) h

/-- Collapsed form of the outer product. -/
theorem op_apply {n : Nat} {R : Type} [CommRing R] (sig : List ℤ)
    (x y : MultiVector n R) (k : Fin (2 ^ n)) :
    op sig x y k =
      ∑ a : Fin (2 ^ n),
        if grade n k.val = grade n a.val + grade n (a.val ^^^ k.val)
        then (gpSign sig a.val (a.val ^^^ k.val) : R) * x a * y (bxor a k) else 0 := by
  unfold op
  refine Finset.sum_congr rfl fun a _ => ?_
  rw [Finset.sum_eq_single (bxor a k)]
  · by_cases hg : grade n k.val = grade n a.val + grade n (a.val ^^^ k.val)
    · rw [if_pos ⟨bxor_cancel_left a k,
          by rw [bxor_val, Nat.xor_cancel_left]; exact hg⟩, if_pos hg, bxor_val]
    · rw [if_neg, if_neg hg]
      intro hc
      apply hg
      have h2 := hc.2
      rw [bxor_val, Nat.xor_cancel_left] at h2
      exact h2
  · intro b _ hb
    rw [if_neg]
    intro hc
    exact hb (eq_bxor_of_bxor_eq hc.1)
  · intro h
    exact absurd (Finset.mem_univ _) h

/-- Collapsed form of the inner product. -/
theorem ip_apply {n : Nat} {R : Type} [CommRing R] (sig : List ℤ)
    (x y : MultiVector n R) (k : Fin (2 ^ n)) :
    ip sig x y k =
      ∑ a : Fin (2 ^ n),
        if (grade n k.val : ℤ) = |(grade n a.val : ℤ) - (grade n (a.val ^^^ k.val) : ℤ)|
        then (gpSign sig a.val (a.val ^^^ k.val) : R) * x a * y (bxor a k) else 0 := by
  unfold ip
  refine Finset.sum_congr rfl fun a _ => ?_
  rw [Finset.sum_eq_single (bxor a k)]
  · by_cases hg :
      (grade n k.val : ℤ) = |(grade n a.val : ℤ) - (grade n (a.val ^^^ k.val) : ℤ)|
    · rw [if_pos ⟨bxor_cancel_left a k,
          by rw [bxor_val, Nat.xor_cancel_left]; exact hg⟩, if_pos hg, bxor_val]
    · rw [if_neg, if_neg hg]
      intro hc
      apply hg
      have h2 := hc.2
      rw [bxor_val, Nat.xor_cancel_left] at h2
      exact h2
  · intro b _ hb
    rw [if_neg]
    intro hc
    exact hb (eq_bxor_of_bxor_eq hc.1)
  · intro h
    exact absurd (Finset.mem_univ _) h

theorem flips_zero_left {n b : Nat} : flips n 0 b = 0 := by
  simp [flips, Nat.zero_testBit]

theorem flips_zero_right {n a : Nat} : flips n a 0 = 0 := by
  simp [flips, Nat.zero_testBit]

theorem metricProd_zero {sig : List ℤ} : metricProd sig 0 = 1 := by
  simp [metricProd, Nat.zero_testBit]

theorem gpSign_zero_left {sig : List ℤ} {b : Nat} : gpSign sig 0 b = 1 := by
  simp [gpSign, reorderSign, flips_zero_left, Nat.zero_and, metricProd_zero]

theorem gpSign_zero_right {sig : List ℤ} {a : Nat} : gpSign sig a 0 = 1 := by
  simp [gpSign, reorderSign, flips_zero_right, Nat.and_zero, metricProd_zero]


theorem bxor_zero_left {n : Nat} (k : Fin (2 ^ n)) : bxor (bzero n) k = k := by
  apply Fin.ext
  exact Nat.zero_xor k.val

theorem bxor_zero_right {n : Nat} (k : Fin (2 ^ n)) : bxor k (bzero n) = k := by
  apply Fin.ext
  exact Nat.xor_zero k.val

theorem gp_one_left {n : Nat} {R : Type} [CommRing R] (sig : List ℤ)
    (x : MultiVector n R) : gp sig (scl 1) x = x := by
  funext k
  rw [gp_apply, Finset.sum_eq_single (bzero n)]
  · rw [show ((bzero n).val : Nat) = 0 from rfl, Nat.zero_xor, gpSign_zero_left,
      bxor_zero_left]
    simp [scl, bzero]
  · intro a _ ha
    have : (scl 1 : MultiVector n R) a = 0 := by
      rw [scl, if_neg]
      intro h
      exact ha (Fin.ext h)
    rw [this, mul_zero, zero_mul]
  · intro h
    exact absurd (Finset.mem_univ _) h

theorem gp_one_right {n : Nat} {R : Type} [CommRing R] (sig : List ℤ)
    (x : MultiVector n R) : gp sig x (scl 1) = x := by
  funext k
  rw [gp_apply, Finset.sum_eq_single k]
  · rw [Nat.xor_self, gpSign_zero_right]
    have : bxor k k = bzero n := by
      apply Fin.ext
      exact Nat.xor_self k.val
    rw [this]
    simp [scl, bzero]
  · intro a _ ha
    have : (scl 1 : MultiVector n R) (bxor a k) = 0 := by
      rw [scl, if_neg]
      intro h
      apply ha
      apply Fin.ext
      have := Nat.xor_cancel_right k.val a.val
      rw [show (bxor a k).val = a.val ^^^ k.val from rfl] at h
      calc a.val = a.val ^^^ k.val ^^^ k.val := (Nat.xor_cancel_right k.val a.val).symm
        _ = 0 ^^^ k.val := by rw [h]
        _ = k.val := Nat.zero_xor k.val
    rw [this, mul_zero]
  · intro h
    exact absurd (Finset.mem_univ _) h

theorem gp_add_left {n : Nat} {R : Type} [CommRing R] (sig : List ℤ)
    (x x' y : MultiVector n R) :
    gp sig (x + x') y = gp sig x y + gp sig x' y := by
  funext k
  rw [Pi.add_apply, gp_apply, gp_apply, gp_apply, ← Finset.sum_add_distrib]
  refine Finset.sum_congr rfl fun a _ => ?_
  rw [Pi.add_apply]
  ring

theorem gp_add_right {n : Nat} {R : Type} [CommRing R] (sig : List ℤ)
    (x y y' : MultiVector n R) :
    gp sig x (y + y') = gp sig x y + gp sig x y' := by
  funext k
  rw [Pi.add_apply, gp_apply, gp_apply, gp_apply, ← Finset.sum_add_distrib]
  refine Finset.sum_congr rfl fun a _ => ?_
  rw [Pi.add_apply]
  ring

theorem gp_smul_left {n : Nat} {R : Type} [CommRing R] (sig : List ℤ) (r : R)
    (x y : MultiVector n R) : gp sig (r • x) y = r • gp sig x y := by
  funext k
  rw [Pi.smul_apply, smul_eq_mul, gp_apply, gp_apply, Finset.mul_sum]
  refine Finset.sum_congr rfl fun a _ => ?_
  rw [Pi.smul_apply, smul_eq_mul]
  ring

theorem gp_smul_right {n : Nat} {R : Type} [CommRing R] (sig : List ℤ) (r : R)
    (x y : MultiVector n R) : gp sig x (r • y) = r • gp sig x y := by
  funext k
  rw [Pi.smul_apply, smul_eq_mul, gp_apply, gp_apply, Finset.mul_sum]
  refine Finset.sum_congr rfl fun a _ => ?_
  rw [Pi.smul_apply, smul_eq_mul]
  ring

theorem gp_bb_bb {n : Nat} {R : Type} [CommRing R] (sig : List ℤ)
    (a b : Fin (2 ^ n)) :
    gp sig (bb a) (bb b) =
      (gpSign sig a.val b.val : R) • (bb (bxor a b) : MultiVector n R) := by
  funext k
  rw [gp_apply, Finset.sum_eq_single a]
  · rw [Pi.smul_apply, smul_eq_mul]
    by_cases h : bxor a k = b
    · have hv : a.val ^^^ k.val = b.val := by rw [← h]; rfl
      have hk : bxor a b = k := by
        rw [← h]
        exact bxor_cancel_left a k
      rw [hv, ← hk, bxor_cancel_left]
      simp [bb]
    · have hb : (bb b : MultiVector n R) (bxor a k) = 0 := by
        rw [bb, if_neg h]
      have hk : ¬(k = bxor a b) := by
        intro hkk
        apply h
        rw [hkk]
        exact bxor_cancel_left a b
      rw [hb, mul_zero]
      simp [bb, hk]
  · intro a' _ ha'
    have : (bb a : MultiVector n R) a' = 0 := by rw [bb, if_neg ha']
    rw [this, mul_zero, zero_mul]
  · intro h
    exact absurd (Finset.mem_univ _) h

theorem op_add_left {n : Nat} {R : Type} [CommRing R] (sig : List ℤ)
    (x x' y : MultiVector n R) :
    op sig (x + x') y = op sig x y + op sig x' y := by
  funext k
  rw [Pi.add_apply, op_apply, op_apply, op_apply, ← Finset.sum_add_distrib]
  refine Finset.sum_congr rfl fun a _ => ?_
  by_cases h : grade n k.val = grade n a.val + grade n (a.val ^^^ k.val) <;>
    simp [h, Pi.add_apply] <;> ring

theorem op_add_right {n : Nat} {R : Type} [CommRing R] (sig : List ℤ)
    (x y y' : MultiVector n R) :
    op sig x (y + y') = op sig x y + op sig x y' := by
  funext k
  rw [Pi.add_apply, op_apply, op_apply, op_apply, ← Finset.sum_add_distrib]
  refine Finset.sum_congr rfl fun a _ => ?_
  by_cases h : grade n k.val = grade n a.val + grade n (a.val ^^^ k.val) <;>
    simp [h, Pi.add_apply] <;> ring

theorem op_smul_left {n : Nat} {R : Type} [CommRing R] (sig : List ℤ) (r : R)
    (x y : MultiVector n R) : op sig (r • x) y = r • op sig x y := by
  funext k
  rw [Pi.smul_apply, smul_eq_mul, op_apply, op_apply, Finset.mul_sum]
  refine Finset.sum_congr rfl fun a _ => ?_
  by_cases h : grade n k.val = grade n a.val + grade n (a.val ^^^ k.val) <;>
    simp [h, Pi.smul_apply, smul_eq_mul] <;> ring

theorem op_smul_right {n : Nat} {R : Type} [CommRing R] (sig : List ℤ) (r : R)
    (x y : MultiVector n R) : op sig x (r • y) = r • op sig x y := by
  funext k
  rw [Pi.smul_apply, smul_eq_mul, op_apply, op_apply, Finset.mul_sum]
  refine Finset.sum_congr rfl fun a _ => ?_
  by_cases h : grade n k.val = grade n a.val + grade n (a.val ^^^ k.val) <;>
    simp [h, Pi.smul_apply, smul_eq_mul] <;> ring

theorem ip_add_left {n : Nat} {R : Type} [CommRing R] (sig : List ℤ)
    (x x' y : MultiVector n R) :
    ip sig (x + x') y = ip sig x y + ip sig x' y := by
  funext k
  rw [Pi.add_apply, ip_apply, ip_apply, ip_apply, ← Finset.sum_add_distrib]
  refine Finset.sum_congr rfl fun a _ => ?_
  by_cases h :
      (grade n k.val : ℤ) = |(grade n a.val : ℤ) - (grade n (a.val ^^^ k.val) : ℤ)| <;>
    simp [h, Pi.add_apply] <;> ring

theorem ip_add_right {n : Nat} {R : Type} [CommRing R] (sig : List ℤ)
    (x y y' : MultiVector n R) :
    ip sig x (y + y') = ip sig x y + ip sig x y' := by
  funext k
  rw [Pi.add_apply, ip_apply, ip_apply, ip_apply, ← Finset.sum_add_distrib]
  refine Finset.sum_congr rfl fun a _ => ?_
  by_cases h :
      (grade n k.val : ℤ) = |(grade n a.val : ℤ) - (grade n (a.val ^^^ k.val) : ℤ)| <;>
    simp [h, Pi.add_apply] <;> ring

theorem ip_smul_left {n : Nat} {R : Type} [CommRing R] (sig : List ℤ) (r : R)
    (x y : MultiVector n R) : ip sig (r • x) y = r • ip sig x y := by
  funext k
  rw [Pi.smul_apply, smul_eq_mul, ip_apply, ip_apply, Finset.mul_sum]
  refine Finset.sum_congr rfl fun a _ => ?_
  by_cases h :
      (grade n k.val : ℤ) = |(grade n a.val : ℤ) - (grade n (a.val ^^^ k.val) : ℤ)| <;>
    simp [h, Pi.smul_apply, smul_eq_mul] <;> ring

theorem ip_smul_right {n : Nat} {R : Type} [CommRing R] (sig : List ℤ) (r : R)
    (x y : MultiVector n R) : ip sig x (r • y) = r • ip sig x y := by
  funext k
  rw [Pi.smul_apply, smul_eq_mul, ip_apply, ip_apply, Finset.mul_sum]
  refine Finset.sum_congr rfl fun a _ => ?_
  by_cases h :
      (grade n k.val : ℤ) = |(grade n a.val : ℤ) - (grade n (a.val ^^^ k.val) : ℤ)| <;>
    simp [h, Pi.smul_apply, smul_eq_mul] <;> ring

theorem op_bb_bb {n : Nat} {R : Type} [CommRing R] (sig : List ℤ)
    (a b : Fin (2 ^ n)) :
    op sig (bb a) (bb b) =
      if grade n (a.val ^^^ b.val) = grade n a.val + grade n b.val
      then (gpSign sig a.val b.val : R) • (bb (bxor a b) : MultiVector n R)
      else 0 := by
  funext k
  rw [op_apply, Finset.sum_eq_single a]
  · by_cases hk : bxor a b = k
    · subst hk
      have hval : a.val ^^^ (bxor a b).val = b.val := by
        rw [bxor_val, ← Nat.xor_assoc, Nat.xor_self, Nat.zero_xor]
      rw [bxor_cancel_left, hval, bxor_val]
      by_cases hg : grade n (a.val ^^^ b.val) = grade n a.val + grade n b.val
      · rw [if_pos hg, if_pos hg, Pi.smul_apply, smul_eq_mul]
        simp [bb]
      · rw [if_neg hg, if_neg hg, Pi.zero_apply]
    · have hzb : (bb b : MultiVector n R) (bxor a k) = 0 := by
        rw [bb, if_neg]
        intro h
        apply hk
        rw [← h]
        exact bxor_cancel_left a k
      have hzr :
          (if grade n (a.val ^^^ b.val) = grade n a.val + grade n b.val
            then (gpSign sig a.val b.val : R) • (bb (bxor a b) : MultiVector n R)
            else 0) k = 0 := by
        split
        · rw [Pi.smul_apply, bb, if_neg (fun h => hk h.symm), smul_zero]
        · rfl
      rw [hzr, hzb]
      split <;> simp
  · intro a' _ ha'
    have hz : (bb a : MultiVector n R) a' = 0 := by rw [bb, if_neg ha']
    by_cases h : grade n k.val = grade n a'.val + grade n (a'.val ^^^ k.val) <;>
      simp [h, hz]
  · intro h
    exact absurd (Finset.mem_univ _) h

theorem ip_bb_bb {n : Nat} {R : Type} [CommRing R] (sig : List ℤ)
    (a b : Fin (2 ^ n)) :
    ip sig (bb a) (bb b) =
      if (grade n (a.val ^^^ b.val) : ℤ) = |(grade n a.val : ℤ) - (grade n b.val : ℤ)|
      then (gpSign sig a.val b.val : R) • (bb (bxor a b) : MultiVector n R)
      else 0 := by
  funext k
  rw [ip_apply, Finset.sum_eq_single a]
  · by_cases hk : bxor a b = k
    · subst hk
      have hval : a.val ^^^ (bxor a b).val = b.val := by
        rw [bxor_val, ← Nat.xor_assoc, Nat.xor_self, Nat.zero_xor]
      rw [bxor_cancel_left, hval, bxor_val]
      by_cases hg :
          (grade n (a.val ^^^ b.val) : ℤ) = |(grade n a.val : ℤ) - (grade n b.val : ℤ)|
      · rw [if_pos hg, if_pos hg, Pi.smul_apply, smul_eq_mul]
        simp [bb]
      · rw [if_neg hg, if_neg hg, Pi.zero_apply]
    · have hzb : (bb b : MultiVector n R) (bxor a k) = 0 := by
        rw [bb, if_neg]
        intro h
        apply hk
        rw [← h]
        exact bxor_cancel_left a k
      have hzr :
          (if (grade n (a.val ^^^ b.val) : ℤ) =
              |(grade n a.val : ℤ) - (grade n b.val : ℤ)|
            then (gpSign sig a.val b.val : R) • (bb (bxor a b) : MultiVector n R)
            else 0) k = 0 := by
        split
        · rw [Pi.smul_apply, bb, if_neg (fun h => hk h.symm), smul_zero]
        · rfl
      rw [hzr, hzb]
      split <;> simp
  · intro a' _ ha'
    have hz : (bb a : MultiVector n R) a' = 0 := by rw [bb, if_neg ha']
    by_cases h :
        (grade n k.val : ℤ) = |(grade n a'.val : ℤ) - (grade n (a'.val ^^^ k.val) : ℤ)| <;>
      simp [h, hz]
  · intro h
    exact absurd (Finset.mem_univ _) h

theorem reverse_reverse {n : Nat} {R : Type} [CommRing R] (x : MultiVector n R) :
    reverse (reverse x) = x := by
  funext k
  simp only [reverse]
  rw [← mul_assoc, ← pow_add, Even.neg_one_pow ⟨_, rfl⟩, one_mul]

theorem reverse_add {n : Nat} {R : Type} [CommRing R] (x y : MultiVector n R) :
    reverse (x + y) = reverse x + reverse y := by
  funext k
  simp only [reverse, Pi.add_apply]
  ring

theorem reverse_smul {n : Nat} {R : Type} [CommRing R] (r : R) (x : MultiVector n R) :
    reverse (r • x) = r • reverse x := by
  funext k
  simp only [reverse, Pi.smul_apply, smul_eq_mul]
  ring

theorem reverse_sub {n : Nat} {R : Type} [CommRing R] (x y : MultiVector n R) :
    reverse (x - y) = reverse x - reverse y := by
  funext k
  simp only [reverse, Pi.sub_apply]
  ring

theorem reverse_bb {n : Nat} {R : Type} [CommRing R] (m : Fin (2 ^ n)) :
    reverse (bb m : MultiVector n R) =
      ((-1 : R) ^ (grade n m.val * (grade n m.val - 1) / 2)) • (bb m : MultiVector n R) := by
  funext k
  simp only [reverse, bb, Pi.smul_apply, smul_eq_mul]
  by_cases h : k = m
  · subst h
    simp
  · simp [h]

theorem grade_zero_mask {n : Nat} : grade n 0 = 0 := by
  simp [grade, Nat.zero_testBit]

theorem reverse_scl {n : Nat} {R : Type} [CommRing R] (r : R) :
    reverse (scl r : MultiVector n R) = scl r := by
  funext k
  simp only [reverse, scl]
  by_cases h : k.val = 0
  · rw [if_pos h, h, grade_zero_mask]
    norm_num
  · rw [if_neg h, mul_zero]

theorem scl_one_eq_bb {n : Nat} {R : Type} [CommRing R] :
    (scl 1 : MultiVector n R) = bb (bzero n) := by
  funext k
  simp only [scl, bb]
  by_cases h : k.val = 0
  · rw [if_pos h, if_pos (Fin.ext h : k = bzero n)]
  · rw [if_neg h, if_neg (fun hh => h (by rw [hh]; rfl))]

theorem smul_bb_zero_eq_scl {n : Nat} {R : Type} [CommRing R] (r : R) :
    r • (bb (bzero n) : MultiVector n R) = scl r := by
  funext k
  simp only [Pi.smul_apply, smul_eq_mul, scl, bb]
  by_cases h : k.val = 0
  · rw [if_pos (Fin.ext h : k = bzero n), if_pos h, mul_one]
  · rw [if_neg (fun hh => h (by rw [hh]; rfl)), if_neg h, mul_zero]

/-- The square of a basis blade collapses to a signed scalar. -/
theorem gp_bb_self {n : Nat} {R : Type} [CommRing R] (sig : List ℤ) (m : Fin (2 ^ n)) :
    gp sig (bb m) (bb m) =
      (scl ((reorderSign sig.length m.val m.val * metricProd sig m.val : ℤ) : R) :
        MultiVector n R) := by
  rw [gp_bb_bb]
  have h1 : bxor m m = bzero n := by
    apply Fin.ext
    exact Nat.xor_self m.val
  have h2 : gpSign sig m.val m.val =
      reorderSign sig.length m.val m.val * metricProd sig m.val := by
    rw [gpSign, Nat.and_self]
  rw [h1, h2, smul_bb_zero_eq_scl]


/-- C5: for every layout and every basis blade, the geometric product of the
blade with itself is a scalar equal to ± the product of the signature entries
of the basis vectors in its mask; in the CGA signature [+1,+1,+1,+1,-1],
e4*e4 == 1.0 and e5*e5 == -1.0. -/
theorem C5_basis_blade_squares :
    (∀ (n : Nat) (R : Type) [CommRing R] (sig : List ℤ) (m : Fin (2 ^ n)),
      ∃ ε : ℤ, (ε = 1 ∨ ε = -1) ∧
        gp sig (bb m) (bb m) = (scl ((ε * metricProd sig m.val : ℤ) : R) :
          MultiVector n R))
    ∧ gp sigC cga_e4 cga_e4 = scl (1 : ℝ)
    ∧ gp sigC cga_e5 cga_e5 = scl (-1 : ℝ) := by
  refine ⟨fun n R _ sig m => ?_, ?_, ?_⟩
  · refine ⟨reorderSign sig.length m.val m.val, ?_, gp_bb_self sig m⟩
    rcases Nat.even_or_odd (flips sig.length m.val m.val) with h | h
    · exact Or.inl (Even.neg_one_pow h)
    · exact Or.inr (Odd.neg_one_pow h)
  · have h := gp_bb_self (R := ℝ) sigC f8
    rw [cga_e4, h]
    have hs : (reorderSign sigC.length 8 8 * metricProd sigC 8 : ℤ) = 1 := by decide
    show scl ((reorderSign sigC.length 8 8 * metricProd sigC 8 : ℤ) : ℝ) = scl (1 : ℝ)
    rw [hs]
    norm_num
  · have h := gp_bb_self (R := ℝ) sigC f16
    rw [cga_e5, h]
    have hs : (reorderSign sigC.length 16 16 * metricProd sigC 16 : ℤ) = -1 := by decide
    show scl ((reorderSign sigC.length 16 16 * metricProd sigC 16 : ℤ) : ℝ) = scl (-1 : ℝ)
    rw [hs]
    norm_num

/-- C6: in the G2 algebra of signature [+1,+1], e1*e1 == 1, the geometric
product e1*e2 == e12, the inner product e1|e2 == 0, and the outer product
e1^e2 == e12. -/
theorem C6_g2_scenario :
    gp sigG2 g2_e1 g2_e1 = scl (1 : ℝ)
    ∧ gp sigG2 g2_e1 g2_e2 = g2_e12
    ∧ ip sigG2 g2_e1 g2_e2 = 0
    ∧ op sigG2 g2_e1 g2_e2 = g2_e12 := by
  refine ⟨?_, ?_, ?_, ?_⟩
  · have h := gp_bb_self (R := ℝ) sigG2 (⟨1, by norm_num⟩ : Fin (2 ^ 2))
    rw [g2_e1, h]
    have hs : (reorderSign sigG2.length 1 1 * metricProd sigG2 1 : ℤ) = 1 := by decide
    show scl ((reorderSign sigG2.length 1 1 * metricProd sigG2 1 : ℤ) : ℝ) = scl (1 : ℝ)
    rw [hs]
    norm_num
  · rw [g2_e1, g2_e2, gp_bb_bb]
    have hs : gpSign sigG2 1 2 = 1 := by decide
    show (gpSign sigG2 1 2 : ℝ) • (bb (bxor ⟨1, by norm_num⟩ ⟨2, by norm_num⟩) :
      MultiVector 2 ℝ) = g2_e12
    rw [hs]
    have hx : bxor (⟨1, by norm_num⟩ : Fin (2 ^ 2)) (⟨2, by norm_num⟩ : Fin (2 ^ 2)) =
        (⟨3, by norm_num⟩ : Fin (2 ^ 2)) := rfl
    rw [hx]
    norm_num
    rfl
  · rw [g2_e1, g2_e2, ip_bb_bb, if_neg (by decide)]
  · rw [g2_e1, g2_e2, op_bb_bb, if_pos (by decide)]
    have hs : gpSign sigG2 1 2 = 1 := by decide
    show (gpSign sigG2 1 2 : ℝ) • (bb (bxor ⟨1, by norm_num⟩ ⟨2, by norm_num⟩) :
      MultiVector 2 ℝ) = g2_e12
    rw [hs]
    have hx : bxor (⟨1, by norm_num⟩ : Fin (2 ^ 2)) (⟨2, by norm_num⟩ : Fin (2 ^ 2)) =
        (⟨3, by norm_num⟩ : Fin (2 ^ 2)) := rfl
    rw [hx]
    norm_num
    rfl

/-- C8: applying reverse twice returns every MultiVector unchanged:
~~A == A (reverse negates exactly the coefficients of blades whose grade k
has k(k−1)/2 odd, so doing it twice undoes it). -/
theorem C8_reverse_involution :
    ∀ (n : Nat) (R : Type) [CommRing R] (A : MultiVector n R),
      reverse (reverse A) = A :=
  fun _ _ _ A => reverse_reverse A

theorem neg_one_pow_congr {a b : ℕ} (h : a % 2 = b % 2) : (-1 : ℤ) ^ a = (-1) ^ b := by
  rcases Nat.even_or_odd a with ha | ha
  · have hb : Even b := Nat.even_iff.mpr (by rw [← h]; exact Nat.even_iff.mp ha)
    rw [Even.neg_one_pow ha, Even.neg_one_pow hb]
  · have hb : Odd b := Nat.odd_iff.mpr (by rw [← h]; exact Nat.odd_iff.mp ha)
    rw [Odd.neg_one_pow ha, Odd.neg_one_pow hb]

theorem flips_xor_left (n a b c : Nat) :
    flips n (a ^^^ b) c % 2 = (flips n a c + flips n b c) % 2 := by
  have key : ((flips n (a ^^^ b) c : ℕ) : ZMod 2) =
      ((flips n a c + flips n b c : ℕ) : ZMod 2) := by
    push_cast [flips]
    rw [← Finset.sum_add_distrib]
    refine Finset.sum_congr rfl fun i _ => ?_
    rw [← Finset.sum_add_distrib]
    refine Finset.sum_congr rfl fun j _ => ?_
    rw [Nat.testBit_xor]
    by_cases hij : j < i
    · by_cases hc : c.testBit j = true
      · cases ha : a.testBit i <;> cases hb : b.testBit i <;>
          simp [hc, hij, ha, hb] <;> decide
      · simp [hc]
    · simp [hij]
  exact (ZMod.natCast_eq_natCast_iff _ _ 2).mp key

theorem flips_xor_right (n a b c : Nat) :
    flips n a (b ^^^ c) % 2 = (flips n a b + flips n a c) % 2 := by
  have key : ((flips n a (b ^^^ c) : ℕ) : ZMod 2) =
      ((flips n a b + flips n a c : ℕ) : ZMod 2) := by
    push_cast [flips]
    rw [← Finset.sum_add_distrib]
    refine Finset.sum_congr rfl fun i _ => ?_
    rw [← Finset.sum_add_distrib]
    refine Finset.sum_congr rfl fun j _ => ?_
    rw [Nat.testBit_xor]
    by_cases hij : j < i
    · by_cases ha : a.testBit i = true
      · cases hb : b.testBit j <;> cases hc : c.testBit j <;>
          simp [ha, hij, hb, hc] <;> decide
      · simp [ha]
    · simp [hij]
  exact (ZMod.natCast_eq_natCast_iff _ _ 2).mp key

theorem reorderSign_xor_left (n a b c : Nat) :
    reorderSign n (a ^^^ b) c = reorderSign n a c * reorderSign n b c := by
  rw [reorderSign, reorderSign, reorderSign, ← pow_add]
  exact neg_one_pow_congr (flips_xor_left n a b c)

theorem reorderSign_xor_right (n a b c : Nat) :
    reorderSign n a (b ^^^ c) = reorderSign n a b * reorderSign n a c := by
  rw [reorderSign, reorderSign, reorderSign, ← pow_add]
  exact neg_one_pow_congr (flips_xor_right n a b c)

theorem metricProd_cocycle (sig : List ℤ) (a b c : Nat) :
    metricProd sig (a &&& b) * metricProd sig ((a ^^^ b) &&& c) =
      metricProd sig (b &&& c) * metricProd sig (a &&& (b ^^^ c)) := by
  rw [metricProd, metricProd, metricProd, metricProd, ← Finset.prod_mul_distrib,
    ← Finset.prod_mul_distrib]
  refine Finset.prod_congr rfl fun i _ => ?_
  rw [Nat.testBit_and, Nat.testBit_and, Nat.testBit_and, Nat.testBit_and,
    Nat.testBit_xor, Nat.testBit_xor]
  cases ha : a.testBit i <;> cases hb : b.testBit i <;> cases hc : c.testBit i <;>
    simp

/-- The cocycle identity of the geometric-product table's sign: it makes the
table-driven geometric product associative. -/
theorem gpSign_cocycle (sig : List ℤ) (a b c : Nat) :
    gpSign sig a b * gpSign sig (a ^^^ b) c =
      gpSign sig a (b ^^^ c) * gpSign sig b c := by
  rw [gpSign, gpSign, gpSign, gpSign, reorderSign_xor_left, reorderSign_xor_right]
  have hm := metricProd_cocycle sig a b c
  linear_combination
    (reorderSign sig.length a b * reorderSign sig.length a c *
      reorderSign sig.length b c) * hm

theorem sum_bxor_reindex {n : Nat} {R : Type} [AddCommMonoid R] (a : Fin (2 ^ n))
    (f : Fin (2 ^ n) → R) : (∑ c, f c) = ∑ b, f (bxor a b) :=
  (Equiv.sum_comp
    (⟨fun b => bxor a b, fun b => bxor a b,
      fun b => bxor_cancel_left a b, fun b => bxor_cancel_left a b⟩ :
      Equiv (Fin (2 ^ n)) (Fin (2 ^ n))) f).symm

theorem bxor_assoc_shuffle {n : Nat} (a b k : Fin (2 ^ n)) :
    bxor (bxor a b) k = bxor b (bxor a k) := by
  apply Fin.ext
  show (a.val ^^^ b.val) ^^^ k.val = b.val ^^^ (a.val ^^^ k.val)
  rw [Nat.xor_comm a.val b.val, Nat.xor_assoc]

/-- Associativity of the table-driven geometric product. -/
theorem gp_assoc {n : Nat} {R : Type} [CommRing R] (sig : List ℤ)
    (x y z : MultiVector n R) :
    gp sig (gp sig x y) z = gp sig x (gp sig y z) := by
  funext k
  rw [gp_apply, gp_apply]
  have hL : (∑ c : Fin (2 ^ n),
        (gpSign sig c.val (c.val ^^^ k.val) : R) * gp sig x y c * z (bxor c k))
      = ∑ a : Fin (2 ^ n), ∑ b : Fin (2 ^ n),
          (gpSign sig (a.val ^^^ b.val) ((a.val ^^^ b.val) ^^^ k.val) : R) *
            ((gpSign sig a.val b.val : R) * x a * y b) * z (bxor (bxor a b) k) :=
    calc (∑ c : Fin (2 ^ n),
        (gpSign sig c.val (c.val ^^^ k.val) : R) * gp sig x y c * z (bxor c k))
        = ∑ c : Fin (2 ^ n), ∑ a : Fin (2 ^ n),
            (gpSign sig c.val (c.val ^^^ k.val) : R) *
              ((gpSign sig a.val (a.val ^^^ c.val) : R) * x a * y (bxor a c)) *
              z (bxor c k) :=
          Finset.sum_congr rfl fun c _ => by
            rw [gp_apply, Finset.mul_sum, Finset.sum_mul]
      _ = ∑ a : Fin (2 ^ n), ∑ c : Fin (2 ^ n),
            (gpSign sig c.val (c.val ^^^ k.val) : R) *
              ((gpSign sig a.val (a.val ^^^ c.val) : R) * x a * y (bxor a c)) *
              z (bxor c k) := Finset.sum_comm
      _ = ∑ a : Fin (2 ^ n), ∑ b : Fin (2 ^ n),
            (gpSign sig (bxor a b).val ((bxor a b).val ^^^ k.val) : R) *
              ((gpSign sig a.val (a.val ^^^ (bxor a b).val) : R) * x a *
                y (bxor a (bxor a b))) * z (bxor (bxor a b) k) :=
          Finset.sum_congr rfl fun a _ => sum_bxor_reindex a _
      _ = ∑ a : Fin (2 ^ n), ∑ b : Fin (2 ^ n),
            (gpSign sig (a.val ^^^ b.val) ((a.val ^^^ b.val) ^^^ k.val) : R) *
              ((gpSign sig a.val b.val : R) * x a * y b) * z (bxor (bxor a b) k) :=
          Finset.sum_congr rfl fun a _ => Finset.sum_congr rfl fun b _ => by
            simp only [bxor_val]
            rw [Nat.xor_cancel_left, bxor_cancel_left]
  have hR : (∑ a : Fin (2 ^ n),
        (gpSign sig a.val (a.val ^^^ k.val) : R) * x a * gp sig y z (bxor a k))
      = ∑ a : Fin (2 ^ n), ∑ b : Fin (2 ^ n),
          (gpSign sig a.val (a.val ^^^ k.val) : R) * x a *
            ((gpSign sig b.val (b.val ^^^ (bxor a k).val) : R) * y b *
              z (bxor b (bxor a k))) :=
    Finset.sum_congr rfl fun a _ => by rw [gp_apply, Finset.mul_sum]
  rw [hL, hR]
  refine Finset.sum_congr rfl fun a _ => Finset.sum_congr rfl fun b _ => ?_
  simp only [bxor_val]
  rw [bxor_assoc_shuffle]
  have e1 : b.val ^^^ (a.val ^^^ k.val) = (a.val ^^^ b.val) ^^^ k.val := by
    rw [Nat.xor_comm a.val b.val, Nat.xor_assoc]
  rw [e1]
  have hc := gpSign_cocycle sig a.val b.val ((a.val ^^^ b.val) ^^^ k.val)
  have hc2 : b.val ^^^ ((a.val ^^^ b.val) ^^^ k.val) = a.val ^^^ k.val := by
    rw [← e1, Nat.xor_cancel_left]
  rw [hc2] at hc
  have hcR : (gpSign sig a.val b.val : R) *
        (gpSign sig (a.val ^^^ b.val) ((a.val ^^^ b.val) ^^^ k.val) : R) =
      (gpSign sig a.val (a.val ^^^ k.val) : R) *
        (gpSign sig b.val ((a.val ^^^ b.val) ^^^ k.val) : R) := by
    exact_mod_cast congrArg (fun t : ℤ => (t : R)) hc
  linear_combination (x a * y b * z (bxor b (bxor a k))) * hcR

theorem grade_eq_sum (n m : Nat) :
    grade n m = ∑ i ∈ Finset.range n, if m.testBit i then 1 else 0 :=
  Finset.card_filter _ _

/-- Interchanging the two factors of a blade product: the transposition
counts of the two orders differ by the pair count minus the overlap. -/
theorem flips_add_flips_swap (n a b : Nat) :
    flips n a b + flips n b a + grade n (a &&& b) = grade n a * grade n b := by
  have hswap : flips n b a = ∑ i ∈ Finset.range n, ∑ j ∈ Finset.range n,
      if a.testBit i ∧ b.testBit j ∧ i < j then 1 else 0 := by
    rw [flips, Finset.sum_comm]
    refine Finset.sum_congr rfl fun i _ => Finset.sum_congr rfl fun j _ => ?_
    exact if_congr (by tauto) rfl rfl
  have hand : (∑ i ∈ Finset.range n, if (a &&& b).testBit i then 1 else 0) =
      ∑ i ∈ Finset.range n, ∑ j ∈ Finset.range n,
        if a.testBit i ∧ b.testBit j ∧ i = j then 1 else 0 := by
    refine Finset.sum_congr rfl fun i hi => ?_
    rw [Finset.sum_eq_single i]
    · rw [Nat.testBit_and]
      by_cases ha : a.testBit i <;> by_cases hb : b.testBit i <;> simp [ha, hb]
    · intro j _ hj
      rw [if_neg]
      rintro ⟨-, -, h⟩
      exact hj h.symm
    · intro hni
      exact absurd hi hni
  rw [grade_eq_sum, grade_eq_sum, grade_eq_sum, Finset.sum_mul_sum, flips, hswap, hand,
    ← Finset.sum_add_distrib, ← Finset.sum_add_distrib]
  refine Finset.sum_congr rfl fun i _ => ?_
  rw [← Finset.sum_add_distrib, ← Finset.sum_add_distrib]
  refine Finset.sum_congr rfl fun j _ => ?_
  by_cases ha : a.testBit i <;> by_cases hb : b.testBit j <;> simp [ha, hb] <;>
    split_ifs <;> omega

/-- The grade of a blade product: overlapping basis vectors cancel in pairs. -/
theorem grade_xor_add (n a b : Nat) :
    grade n (a ^^^ b) + 2 * grade n (a &&& b) = grade n a + grade n b := by
  rw [grade_eq_sum, grade_eq_sum, grade_eq_sum, grade_eq_sum, Finset.mul_sum,
    ← Finset.sum_add_distrib, ← Finset.sum_add_distrib]
  refine Finset.sum_congr rfl fun i _ => ?_
  rw [Nat.testBit_xor, Nat.testBit_and]
  cases ha : a.testBit i <;> cases hb : b.testBit i <;> simp

theorem triangle_mul_two (m : Nat) : m * (m - 1) / 2 * 2 = m * (m - 1) := by
  rw [← Finset.sum_range_id m, Finset.sum_range_id_mul_two]

theorem triangle_add (a b : Nat) :
    (a + b) * (a + b - 1) / 2 = a * (a - 1) / 2 + b * (b - 1) / 2 + a * b := by
  apply Nat.eq_of_mul_eq_mul_right (show 0 < 2 by norm_num)
  rw [triangle_mul_two, Nat.add_mul (a * (a - 1) / 2 + b * (b - 1) / 2) (a * b) 2,
    Nat.add_mul (a * (a - 1) / 2) (b * (b - 1) / 2) 2, triangle_mul_two,
    triangle_mul_two]
  rcases a with - | a'
  · simp
  rcases b with - | b'
  · simp
  have h1 : a' + 1 + (b' + 1) - 1 = a' + b' + 1 := by omega
  have h2 : a' + 1 - 1 = a' := by omega
  have h3 : b' + 1 - 1 = b' := by omega
  rw [h1, h2, h3]
  ring

theorem triangle_two_mul (t : Nat) : 2 * t * (2 * t - 1) / 2 = t * (2 * t - 1) := by
  rcases t with - | t'
  · simp
  apply Nat.eq_of_mul_eq_mul_right (show 0 < 2 by norm_num)
  rw [triangle_mul_two]
  ring

theorem triangle_odd_parity (t : Nat) : t * (2 * t - 1) % 2 = t % 2 := by
  rcases t with - | t'
  · simp
  have h : 2 * (t' + 1) - 1 = 2 * t' + 1 := by omega
  have h2 : (2 * t' + 1) % 2 = 1 := by omega
  rw [h, Nat.mul_mod, h2]
  omega

/-- The parity identity behind reversal being an anti-automorphism: the
reverse sign of a product blade differs from the two factors' reverse signs
by the interchange parity. -/
theorem reverse_parity {x y t c : Nat} (h : c + 2 * t = x + y) :
    (c * (c - 1) / 2 + x * y + t) % 2 = (x * (x - 1) / 2 + y * (y - 1) / 2) % 2 := by
  have e1 : (c + 2 * t) * (c + 2 * t - 1) / 2 =
      c * (c - 1) / 2 + 2 * t * (2 * t - 1) / 2 + c * (2 * t) := triangle_add c (2 * t)
  have e2 : (x + y) * (x + y - 1) / 2 =
      x * (x - 1) / 2 + y * (y - 1) / 2 + x * y := triangle_add x y
  rw [h] at e1
  rw [e2, triangle_two_mul] at e1
  have e3 : c * (2 * t) = 2 * (c * t) := by ring
  rw [e3] at e1
  have e4 := triangle_odd_parity t
  generalize c * (c - 1) / 2 = A at *
  generalize x * (x - 1) / 2 = X at *
  generalize y * (y - 1) / 2 = Y at *
  generalize x * y = B at *
  generalize t * (2 * t - 1) = Q at *
  generalize c * t = D at *
  omega

/-- Products of ±1 signature entries square to one. -/
theorem getD_mem_of_lt {sig : List ℤ} {i : Nat} (hlen : i < sig.length) :
    sig.getD i 1 ∈ sig := by
  rw [List.getD_eq_getElem?_getD, List.getElem?_eq_getElem hlen, Option.getD_some]
  exact List.getElem_mem hlen

theorem metricProd_mul_self {sig : List ℤ} (hsig : ∀ s ∈ sig, s = 1 ∨ s = -1)
    (m : Nat) : metricProd sig m * metricProd sig m = 1 := by
  rw [metricProd, ← Finset.prod_mul_distrib]
  apply Finset.prod_eq_one
  intro i hi
  by_cases h : m.testBit i
  · rw [if_pos h]
    rcases hsig _ (getD_mem_of_lt (Finset.mem_range.mp hi)) with h1 | h1 <;>
      rw [h1] <;> norm_num
  · rw [if_neg h]
    norm_num

/-- The sign identity making reversal an anti-automorphism of the
table-driven geometric product. -/
theorem gpSign_swap (sig : List ℤ) (a b : Nat) :
    (-1 : ℤ) ^ (grade sig.length (a ^^^ b) * (grade sig.length (a ^^^ b) - 1) / 2) *
        gpSign sig a b =
      (-1 : ℤ) ^ (grade sig.length a * (grade sig.length a - 1) / 2) *
        (-1 : ℤ) ^ (grade sig.length b * (grade sig.length b - 1) / 2) *
        gpSign sig b a := by
  have E1 := flips_add_flips_swap sig.length a b
  have E2 := grade_xor_add sig.length a b
  have P := reverse_parity E2
  have hpar : (grade sig.length (a ^^^ b) * (grade sig.length (a ^^^ b) - 1) / 2 +
        flips sig.length a b) % 2
      = (grade sig.length a * (grade sig.length a - 1) / 2 +
          grade sig.length b * (grade sig.length b - 1) / 2 +
          flips sig.length b a) % 2 := by
    generalize grade sig.length (a ^^^ b) *
      (grade sig.length (a ^^^ b) - 1) / 2 = Tc at P ⊢
    generalize grade sig.length a * (grade sig.length a - 1) / 2 = Ta at P ⊢
    generalize grade sig.length b * (grade sig.length b - 1) / 2 = Tb at P ⊢
    generalize grade sig.length a * grade sig.length b = G at E1 P
    omega
  have hsign : (-1 : ℤ) ^ (grade sig.length (a ^^^ b) *
        (grade sig.length (a ^^^ b) - 1) / 2) * reorderSign sig.length a b
      = (-1 : ℤ) ^ (grade sig.length a * (grade sig.length a - 1) / 2) *
          ((-1 : ℤ) ^ (grade sig.length b * (grade sig.length b - 1) / 2)) *
          reorderSign sig.length b a := by
    rw [reorderSign, reorderSign, ← pow_add, ← pow_add, ← pow_add]
    exact neg_one_pow_congr hpar
  rw [gpSign, gpSign, Nat.and_comm b a]
  linear_combination metricProd sig (a &&& b) * hsign

theorem bxor_cancel_right {n : Nat} (k a : Fin (2 ^ n)) : bxor (bxor a k) k = a := by
  apply Fin.ext
  exact Nat.xor_cancel_right k.val a.val

theorem sum_bxor_reindex_right {n : Nat} {R : Type} [AddCommMonoid R]
    (k : Fin (2 ^ n)) (f : Fin (2 ^ n) → R) : (∑ c, f c) = ∑ a, f (bxor a k) :=
  (Equiv.sum_comp
    (⟨fun a => bxor a k, fun a => bxor a k,
      fun a => bxor_cancel_right k a, fun a => bxor_cancel_right k a⟩ :
      Equiv (Fin (2 ^ n)) (Fin (2 ^ n))) f).symm

/-- Reversal is an anti-automorphism: ~(A*B) = ~B * ~A. -/
theorem reverse_gp {n : Nat} {R : Type} [CommRing R] {sig : List ℤ}
    (hlen : sig.length = n) (x y : MultiVector n R) :
    reverse (gp sig x y) = gp sig (reverse y) (reverse x) := by
  funext k
  simp only [reverse]
  rw [gp_apply, gp_apply, Finset.mul_sum, sum_bxor_reindex_right k]
  refine Finset.sum_congr rfl fun a _ => ?_
  simp only [reverse, bxor_val, bxor_cancel_right]
  rw [Nat.xor_cancel_right]
  have hxk : (a.val ^^^ k.val) ^^^ a.val = k.val := by
    rw [Nat.xor_comm a.val k.val, Nat.xor_cancel_right]
  have hswap := gpSign_swap sig (a.val ^^^ k.val) a.val
  rw [hxk, hlen] at hswap
  have hcast : (-1 : R) ^ (grade n k.val * (grade n k.val - 1) / 2) *
        (gpSign sig (a.val ^^^ k.val) a.val : R)
      = (-1 : R) ^ (grade n (a.val ^^^ k.val) *
            (grade n (a.val ^^^ k.val) - 1) / 2) *
          ((-1 : R) ^ (grade n a.val * (grade n a.val - 1) / 2)) *
          (gpSign sig a.val (a.val ^^^ k.val) : R) := by
    have := congrArg (fun t : ℤ => (t : R)) hswap
    push_cast at this
    exact this
  linear_combination (x (bxor a k) * y a) * hcast

theorem ip_cvec_cvec (p1 p2 p3 p4 p5 q1 q2 q3 q4 q5 : ℝ) :
    ip sigC (cvec p1 p2 p3 p4 p5) (cvec q1 q2 q3 q4 q5) =
      (p1 * q1 + p2 * q2 + p3 * q3 + p4 * q4 - p5 * q5) •
        (bb (bzero 5) : MultiVector 5 ℝ) := by
  have h_1_1 : ip sigC (bb f1 : MultiVector 5 ℝ) (bb f1) =
      ((1 : ℝ)) • (bb (bzero 5) : MultiVector 5 ℝ) := by
    rw [ip_bb_bb, if_pos (by decide),
      show bxor f1 f1 = bzero 5 from by decide,
      show gpSign sigC f1.val f1.val = (1 : ℤ) from by decide]
    norm_num
  have h_1_2 : ip sigC (bb f1 : MultiVector 5 ℝ) (bb f2) = 0 := by
    rw [ip_bb_bb, if_neg (by decide)]
  have h_1_4 : ip sigC (bb f1 : MultiVector 5 ℝ) (bb f4) = 0 := by
    rw [ip_bb_bb, if_neg (by decide)]
  have h_1_8 : ip sigC (bb f1 : MultiVector 5 ℝ) (bb f8) = 0 := by
    rw [ip_bb_bb, if_neg (by decide)]
  have h_1_16 : ip sigC (bb f1 : MultiVector 5 ℝ) (bb f16) = 0 := by
    rw [ip_bb_bb, if_neg (by decide)]
  have h_2_1 : ip sigC (bb f2 : MultiVector 5 ℝ) (bb f1) = 0 := by
    rw [ip_bb_bb, if_neg (by decide)]
  have h_2_2 : ip sigC (bb f2 : MultiVector 5 ℝ) (bb f2) =
      ((1 : ℝ)) • (bb (bzero 5) : MultiVector 5 ℝ) := by
    rw [ip_bb_bb, if_pos (by decide),
      show bxor f2 f2 = bzero 5 from by decide,
      show gpSign sigC f2.val f2.val = (1 : ℤ) from by decide]
    norm_num
  have h_2_4 : ip sigC (bb f2 : MultiVector 5 ℝ) (bb f4) = 0 := by
    rw [ip_bb_bb, if_neg (by decide)]
  have h_2_8 : ip sigC (bb f2 : MultiVector 5 ℝ) (bb f8) = 0 := by
    rw [ip_bb_bb, if_neg (by decide)]
  have h_2_16 : ip sigC (bb f2 : MultiVector 5 ℝ) (bb f16) = 0 := by
    rw [ip_bb_bb, if_neg (by decide)]
  have h_4_1 : ip sigC (bb f4 : MultiVector 5 ℝ) (bb f1) = 0 := by
    rw [ip_bb_bb, if_neg (by decide)]
  have h_4_2 : ip sigC (bb f4 : MultiVector 5 ℝ) (bb f2) = 0 := by
    rw [ip_bb_bb, if_neg (by decide)]
  have h_4_4 : ip sigC (bb f4 : MultiVector 5 ℝ) (bb f4) =
      ((1 : ℝ)) • (bb (bzero 5) : MultiVector 5 ℝ) := by
    rw [ip_bb_bb, if_pos (by decide),
      show bxor f4 f4 = bzero 5 from by decide,
      show gpSign sigC f4.val f4.val = (1 : ℤ) from by decide]
    norm_num
  have h_4_8 : ip sigC (bb f4 : MultiVector 5 ℝ) (bb f8) = 0 := by
    rw [ip_bb_bb, if_neg (by decide)]
  have h_4_16 : ip sigC (bb f4 : MultiVector 5 ℝ) (bb f16) = 0 := by
    rw [ip_bb_bb, if_neg (by decide)]
  have h_8_1 : ip sigC (bb f8 : MultiVector 5 ℝ) (bb f1) = 0 := by
    rw [ip_bb_bb, if_neg (by decide)]
  have h_8_2 : ip sigC (bb f8 : MultiVector 5 ℝ) (bb f2) = 0 := by
    rw [ip_bb_bb, if_neg (by decide)]
  have h_8_4 : ip sigC (bb f8 : MultiVector 5 ℝ) (bb f4) = 0 := by
    rw [ip_bb_bb, if_neg (by decide)]
  have h_8_8 : ip sigC (bb f8 : MultiVector 5 ℝ) (bb f8) =
      ((1 : ℝ)) • (bb (bzero 5) : MultiVector 5 ℝ) := by
    rw [ip_bb_bb, if_pos (by decide),
      show bxor f8 f8 = bzero 5 from by decide,
      show gpSign sigC f8.val f8.val = (1 : ℤ) from by decide]
    norm_num
  have h_8_16 : ip sigC (bb f8 : MultiVector 5 ℝ) (bb f16) = 0 := by
    rw [ip_bb_bb, if_neg (by decide)]
  have h_16_1 : ip sigC (bb f16 : MultiVector 5 ℝ) (bb f1) = 0 := by
    rw [ip_bb_bb, if_neg (by decide)]
  have h_16_2 : ip sigC (bb f16 : MultiVector 5 ℝ) (bb f2) = 0 := by
    rw [ip_bb_bb, if_neg (by decide)]
  have h_16_4 : ip sigC (bb f16 : MultiVector 5 ℝ) (bb f4) = 0 := by
    rw [ip_bb_bb, if_neg (by decide)]
  have h_16_8 : ip sigC (bb f16 : MultiVector 5 ℝ) (bb f8) = 0 := by
    rw [ip_bb_bb, if_neg (by decide)]
  have h_16_16 : ip sigC (bb f16 : MultiVector 5 ℝ) (bb f16) =
      ((-1 : ℝ)) • (bb (bzero 5) : MultiVector 5 ℝ) := by
    rw [ip_bb_bb, if_pos (by decide),
      show bxor f16 f16 = bzero 5 from by decide,
      show gpSign sigC f16.val f16.val = (-1 : ℤ) from by decide]
    norm_num
  rw [cvec, cvec]
  simp only [ip_add_left, ip_add_right, ip_smul_left, ip_smul_right,
    h_1_1, h_1_2, h_1_4, h_1_8, h_1_16, h_2_1, h_2_2, h_2_4, h_2_8, h_2_16, h_4_1, h_4_2, h_4_4, h_4_8, h_4_16, h_8_1, h_8_2, h_8_4, h_8_8, h_8_16, h_16_1, h_16_2, h_16_4, h_16_8, h_16_16, smul_zero, add_zero, zero_add]
  module

theorem bb_bzero_apply {n : Nat} {R : Type} [CommRing R] :
    (bb (bzero n) : MultiVector n R) (bzero n) = 1 := by
  rw [bb, if_pos rfl]

theorem einf_eq_cvec : einf = cvec 0 0 0 1 1 := by
  rw [einf, cvec, cga_e4, cga_e5]
  module

theorem euc_eq_cvec (x1 x2 x3 : ℝ) : euc x1 x2 x3 = cvec x1 x2 x3 0 0 := by
  rw [euc, cvec, cga_e1, cga_e2, cga_e3]
  module

theorem up_eq_cvec (x1 x2 x3 : ℝ) :
    up x1 x2 x3 = cvec x1 x2 x3 ((x1 ^ 2 + x2 ^ 2 + x3 ^ 2) / 2 - 2⁻¹)
      ((x1 ^ 2 + x2 ^ 2 + x3 ^ 2) / 2 + 2⁻¹) := by
  rw [up, euc, einf, eo, cvec, cga_e1, cga_e2, cga_e3, cga_e4, cga_e5]
  module

theorem einfCoeff_up (x1 x2 x3 : ℝ) : einfCoeff (up x1 x2 x3) = 1 := by
  rw [einfCoeff, up_eq_cvec, einf_eq_cvec, ip_cvec_cvec, Pi.smul_apply,
    bb_bzero_apply, smul_eq_mul, mul_one]
  ring

theorem euclidPart_cvec (p1 p2 p3 p4 p5 : ℝ) :
    euclidPart (cvec p1 p2 p3 p4 p5) = cvec p1 p2 p3 0 0 := by
  funext k
  rw [euclidPart]
  by_cases h : k = f1 ∨ k = f2 ∨ k = f4
  · rw [if_pos h]
    rcases h with h | h | h <;> subst h <;>
      simp [cvec, bb, f1, f2, f4, f8, f16, Pi.add_apply, Pi.smul_apply]
  · rw [if_neg h]
    push_neg at h
    simp [cvec, bb, Pi.add_apply, Pi.smul_apply, h.1, h.2.1, h.2.2]

/-- C7: for every Euclidean vector x, `down(up(x)) = x`, and `up(x)` is a
null conformal point: `up(x) · up(x) = 0`. -/
theorem C7_down_up_roundtrip (x1 x2 x3 : ℝ) :
    down (up x1 x2 x3) = euc x1 x2 x3 ∧
      ip sigC (up x1 x2 x3) (up x1 x2 x3) = 0 := by
  constructor
  · rw [down, einfCoeff_up, inv_one, one_smul, up_eq_cvec, euclidPart_cvec,
      euc_eq_cvec]
  · rw [up_eq_cvec, ip_cvec_cvec]
    have hc : (x1 * x1 + x2 * x2 + x3 * x3 +
        ((x1 ^ 2 + x2 ^ 2 + x3 ^ 2) / 2 - 2⁻¹) *
          ((x1 ^ 2 + x2 ^ 2 + x3 ^ 2) / 2 - 2⁻¹) -
        ((x1 ^ 2 + x2 ^ 2 + x3 ^ 2) / 2 + 2⁻¹) *
          ((x1 ^ 2 + x2 ^ 2 + x3 ^ 2) / 2 + 2⁻¹)) = (0 : ℝ) := by
      ring
    rw [hc, zero_smul]

theorem scl_bzero_apply {n : Nat} {R : Type} [CommRing R] (r : R) :
    (scl r : MultiVector n R) (bzero n) = r := by
  rw [scl, if_pos (show (bzero n).val = 0 from rfl)]

theorem gp_zero_left {n : Nat} {R : Type} [CommRing R] (sig : List ℤ)
    (y : MultiVector n R) : gp sig 0 y = 0 := by
  funext k
  rw [gp_apply]
  refine Finset.sum_eq_zero fun a _ => ?_
  rw [Pi.zero_apply, mul_zero, zero_mul]

theorem gp_zero_right {n : Nat} {R : Type} [CommRing R] (sig : List ℤ)
    (x : MultiVector n R) : gp sig x 0 = 0 := by
  funext k
  rw [gp_apply]
  refine Finset.sum_eq_zero fun a _ => ?_
  rw [Pi.zero_apply, mul_zero]

theorem gp_neg_left {n : Nat} {R : Type} [CommRing R] (sig : List ℤ)
    (x y : MultiVector n R) : gp sig (-x) y = -gp sig x y := by
  funext k
  rw [Pi.neg_apply, gp_apply, gp_apply, ← Finset.sum_neg_distrib]
  refine Finset.sum_congr rfl fun a _ => ?_
  rw [Pi.neg_apply]
  ring

theorem gp_neg_right {n : Nat} {R : Type} [CommRing R] (sig : List ℤ)
    (x y : MultiVector n R) : gp sig x (-y) = -gp sig x y := by
  funext k
  rw [Pi.neg_apply, gp_apply, gp_apply, ← Finset.sum_neg_distrib]
  refine Finset.sum_congr rfl fun a _ => ?_
  rw [Pi.neg_apply]
  ring

theorem gp_sub_left {n : Nat} {R : Type} [CommRing R] (sig : List ℤ)
    (x x' y : MultiVector n R) :
    gp sig (x - x') y = gp sig x y - gp sig x' y := by
  rw [sub_eq_add_neg, gp_add_left, gp_neg_left, sub_eq_add_neg]

theorem gp_sub_right {n : Nat} {R : Type} [CommRing R] (sig : List ℤ)
    (x y y' : MultiVector n R) :
    gp sig x (y - y') = gp sig x y - gp sig x y' := by
  rw [sub_eq_add_neg, gp_add_right, gp_neg_right, sub_eq_add_neg]

theorem gp_euc_einf (d1 d2 d3 : ℝ) :
    gp sigC (euc d1 d2 d3) einf =
      d1 • bb f9 + d1 • bb f17 + d2 • bb f10 + d2 • bb f18 +
        d3 • bb f12 + d3 • bb f20 := by
  have h18 : gp sigC (bb f1 : MultiVector 5 ℝ) (bb f8) = (1 : ℝ) • bb f9 := by
    rw [gp_bb_bb, show bxor f1 f8 = f9 from by decide,
      show gpSign sigC f1.val f8.val = (1 : ℤ) from by decide]
    norm_num
  have h116 : gp sigC (bb f1 : MultiVector 5 ℝ) (bb f16) = (1 : ℝ) • bb f17 := by
    rw [gp_bb_bb, show bxor f1 f16 = f17 from by decide,
      show gpSign sigC f1.val f16.val = (1 : ℤ) from by decide]
    norm_num
  have h28 : gp sigC (bb f2 : MultiVector 5 ℝ) (bb f8) = (1 : ℝ) • bb f10 := by
    rw [gp_bb_bb, show bxor f2 f8 = f10 from by decide,
      show gpSign sigC f2.val f8.val = (1 : ℤ) from by decide]
    norm_num
  have h216 : gp sigC (bb f2 : MultiVector 5 ℝ) (bb f16) = (1 : ℝ) • bb f18 := by
    rw [gp_bb_bb, show bxor f2 f16 = f18 from by decide,
      show gpSign sigC f2.val f16.val = (1 : ℤ) from by decide]
    norm_num
  have h38 : gp sigC (bb f4 : MultiVector 5 ℝ) (bb f8) = (1 : ℝ) • bb f12 := by
    rw [gp_bb_bb, show bxor f4 f8 = f12 from by decide,
      show gpSign sigC f4.val f8.val = (1 : ℤ) from by decide]
    norm_num
  have h316 : gp sigC (bb f4 : MultiVector 5 ℝ) (bb f16) = (1 : ℝ) • bb f20 := by
    rw [gp_bb_bb, show bxor f4 f16 = f20 from by decide,
      show gpSign sigC f4.val f16.val = (1 : ℤ) from by decide]
    norm_num
  rw [euc, einf, cga_e1, cga_e2, cga_e3, cga_e4, cga_e5]
  simp only [gp_add_left, gp_add_right, gp_smul_left, gp_smul_right,
    h18, h116, h28, h216, h38, h316]
  module

/-- C2 (amended): `generate_translation_rotor(d)` returns `1 − ½·d·e∞`
(equivalently `1 + ½·e∞·d`) with the displacement conformalized —
explicitly, the even multivector with scalar part 1 and the six
Euclidean–null bivector coefficients −d_i/2, matching the notebook's
recorded rotor. -/
theorem C2_translation_rotor (d1 d2 d3 : ℝ) :
    generate_translation_rotor d1 d2 d3 =
      scl 1 - (d1 / 2) • bb f9 - (d1 / 2) • bb f17 - (d2 / 2) • bb f10 -
        (d2 / 2) • bb f18 - (d3 / 2) • bb f12 - (d3 / 2) • bb f20 := by
  rw [generate_translation_rotor, gp_euc_einf]
  module

/-- C2 counterexample: the claimed formula `1 + ½·d·e∞` (the spec's words)
disagrees with the program's translation rotor already at d = (2, 0, 0):
the two rotors differ in the e14 coefficient (−1 versus +1). -/
theorem C2_translation_rotor_counterexample :
    generate_translation_rotor 2 0 0 ≠ generate_translation_rotor_spec 2 0 0 := by
  intro h
  have h9 := congrFun h f9
  rw [generate_translation_rotor, generate_translation_rotor_spec,
    gp_euc_einf] at h9
  simp only [Pi.sub_apply, Pi.add_apply, Pi.smul_apply, smul_eq_mul,
    scl, bb, f9, f17, f10, f18, f12, f20] at h9
  norm_num at h9

theorem reverse_bb_two (m : Fin (2 ^ 5)) (h : grade 5 m.val = 2) :
    reverse (bb m : MultiVector 5 ℝ) = -bb m := by
  rw [reverse_bb, h]
  norm_num

theorem gp_einf_euc (d1 d2 d3 : ℝ) :
    gp sigC einf (euc d1 d2 d3) = -gp sigC (euc d1 d2 d3) einf := by
  have h81 : gp sigC (bb f8 : MultiVector 5 ℝ) (bb f1) = (-1 : ℝ) • bb f9 := by
    rw [gp_bb_bb, show bxor f8 f1 = f9 from by decide,
      show gpSign sigC f8.val f1.val = (-1 : ℤ) from by decide]
    norm_num
  have h161 : gp sigC (bb f16 : MultiVector 5 ℝ) (bb f1) = (-1 : ℝ) • bb f17 := by
    rw [gp_bb_bb, show bxor f16 f1 = f17 from by decide,
      show gpSign sigC f16.val f1.val = (-1 : ℤ) from by decide]
    norm_num
  have h82 : gp sigC (bb f8 : MultiVector 5 ℝ) (bb f2) = (-1 : ℝ) • bb f10 := by
    rw [gp_bb_bb, show bxor f8 f2 = f10 from by decide,
      show gpSign sigC f8.val f2.val = (-1 : ℤ) from by decide]
    norm_num
  have h162 : gp sigC (bb f16 : MultiVector 5 ℝ) (bb f2) = (-1 : ℝ) • bb f18 := by
    rw [gp_bb_bb, show bxor f16 f2 = f18 from by decide,
      show gpSign sigC f16.val f2.val = (-1 : ℤ) from by decide]
    norm_num
  have h84 : gp sigC (bb f8 : MultiVector 5 ℝ) (bb f4) = (-1 : ℝ) • bb f12 := by
    rw [gp_bb_bb, show bxor f8 f4 = f12 from by decide,
      show gpSign sigC f8.val f4.val = (-1 : ℤ) from by decide]
    norm_num
  have h164 : gp sigC (bb f16 : MultiVector 5 ℝ) (bb f4) = (-1 : ℝ) • bb f20 := by
    rw [gp_bb_bb, show bxor f16 f4 = f20 from by decide,
      show gpSign sigC f16.val f4.val = (-1 : ℤ) from by decide]
    norm_num
  rw [gp_euc_einf, einf, euc, cga_e1, cga_e2, cga_e3, cga_e4, cga_e5]
  simp only [gp_add_left, gp_add_right, gp_smul_left, gp_smul_right,
    h81, h161, h82, h162, h84, h164]
  module

theorem gp_einf_einf : gp sigC einf einf = 0 := by
  have h88 : gp sigC (bb f8 : MultiVector 5 ℝ) (bb f8) =
      (1 : ℝ) • bb (bzero 5) := by
    rw [gp_bb_bb, show bxor f8 f8 = bzero 5 from by decide,
      show gpSign sigC f8.val f8.val = (1 : ℤ) from by decide]
    norm_num
  have h816 : gp sigC (bb f8 : MultiVector 5 ℝ) (bb f16) =
      (1 : ℝ) • bb (bxor f8 f16) := by
    rw [gp_bb_bb, show gpSign sigC f8.val f16.val = (1 : ℤ) from by decide]
    norm_num
  have h168 : gp sigC (bb f16 : MultiVector 5 ℝ) (bb f8) =
      (-1 : ℝ) • bb (bxor f8 f16) := by
    rw [gp_bb_bb, show bxor f16 f8 = bxor f8 f16 from by decide,
      show gpSign sigC f16.val f8.val = (-1 : ℤ) from by decide]
    norm_num
  have h1616 : gp sigC (bb f16 : MultiVector 5 ℝ) (bb f16) =
      (-1 : ℝ) • bb (bzero 5) := by
    rw [gp_bb_bb, show bxor f16 f16 = bzero 5 from by decide,
      show gpSign sigC f16.val f16.val = (-1 : ℤ) from by decide]
    norm_num
  rw [einf, cga_e4, cga_e5]
  rw [gp_add_left, gp_add_right, gp_add_right, h88, h816, h168, h1616]
  module

theorem gp_trans_sq_zero (d1 d2 d3 : ℝ) :
    gp sigC (gp sigC (euc d1 d2 d3) einf) (gp sigC (euc d1 d2 d3) einf) = 0 := by
  have h1 : gp sigC einf (gp sigC (euc d1 d2 d3) einf) = 0 := by
    rw [← gp_assoc, gp_einf_euc, gp_neg_left, gp_assoc, gp_einf_einf,
      gp_zero_right, neg_zero]
  rw [gp_assoc, h1, gp_zero_right]

theorem reverse_gp_euc_einf (d1 d2 d3 : ℝ) :
    reverse (gp sigC (euc d1 d2 d3) einf) = -gp sigC (euc d1 d2 d3) einf := by
  have r9 : reverse (bb f9 : MultiVector 5 ℝ) = -bb f9 :=
    reverse_bb_two f9 (by decide)
  have r17 : reverse (bb f17 : MultiVector 5 ℝ) = -bb f17 :=
    reverse_bb_two f17 (by decide)
  have r10 : reverse (bb f10 : MultiVector 5 ℝ) = -bb f10 :=
    reverse_bb_two f10 (by decide)
  have r18 : reverse (bb f18 : MultiVector 5 ℝ) = -bb f18 :=
    reverse_bb_two f18 (by decide)
  have r12 : reverse (bb f12 : MultiVector 5 ℝ) = -bb f12 :=
    reverse_bb_two f12 (by decide)
  have r20 : reverse (bb f20 : MultiVector 5 ℝ) = -bb f20 :=
    reverse_bb_two f20 (by decide)
  rw [gp_euc_einf]
  simp only [reverse_add, reverse_smul, r9, r17, r10, r18, r12, r20]
  module

theorem trans_rotor_unit (d1 d2 d3 : ℝ) :
    gp sigC (generate_translation_rotor d1 d2 d3)
      (reverse (generate_translation_rotor d1 d2 d3)) = scl 1 := by
  rw [generate_translation_rotor, reverse_sub, reverse_scl, reverse_smul,
    reverse_gp_euc_einf]
  rw [gp_sub_left, gp_sub_right, gp_sub_right, gp_one_left, gp_one_left,
    gp_one_right]
  rw [gp_smul_left, gp_smul_right, gp_neg_right, gp_trans_sq_zero, neg_zero,
    smul_zero, smul_zero]
  module

theorem op_euc_euc (a1 a2 a3 b1 b2 b3 : ℝ) :
    op sigC (euc a1 a2 a3) (euc b1 b2 b3) =
      ebiv (a1 * b2 - a2 * b1) (a1 * b3 - a3 * b1) (a2 * b3 - a3 * b2) := by
  have o11 : op sigC (bb f1 : MultiVector 5 ℝ) (bb f1) = 0 := by
    rw [op_bb_bb, if_neg (by decide)]
  have o22 : op sigC (bb f2 : MultiVector 5 ℝ) (bb f2) = 0 := by
    rw [op_bb_bb, if_neg (by decide)]
  have o44 : op sigC (bb f4 : MultiVector 5 ℝ) (bb f4) = 0 := by
    rw [op_bb_bb, if_neg (by decide)]
  have o12 : op sigC (bb f1 : MultiVector 5 ℝ) (bb f2) = (1 : ℝ) • bb f3 := by
    rw [op_bb_bb, if_pos (by decide), show bxor f1 f2 = f3 from by decide,
      show gpSign sigC f1.val f2.val = (1 : ℤ) from by decide]
    norm_num
  have o21 : op sigC (bb f2 : MultiVector 5 ℝ) (bb f1) = (-1 : ℝ) • bb f3 := by
    rw [op_bb_bb, if_pos (by decide), show bxor f2 f1 = f3 from by decide,
      show gpSign sigC f2.val f1.val = (-1 : ℤ) from by decide]
    norm_num
  have o14 : op sigC (bb f1 : MultiVector 5 ℝ) (bb f4) = (1 : ℝ) • bb f5 := by
    rw [op_bb_bb, if_pos (by decide), show bxor f1 f4 = f5 from by decide,
      show gpSign sigC f1.val f4.val = (1 : ℤ) from by decide]
    norm_num
  have o41 : op sigC (bb f4 : MultiVector 5 ℝ) (bb f1) = (-1 : ℝ) • bb f5 := by
    rw [op_bb_bb, if_pos (by decide), show bxor f4 f1 = f5 from by decide,
      show gpSign sigC f4.val f1.val = (-1 : ℤ) from by decide]
    norm_num
  have o24 : op sigC (bb f2 : MultiVector 5 ℝ) (bb f4) = (1 : ℝ) • bb f6 := by
    rw [op_bb_bb, if_pos (by decide), show bxor f2 f4 = f6 from by decide,
      show gpSign sigC f2.val f4.val = (1 : ℤ) from by decide]
    norm_num
  have o42 : op sigC (bb f4 : MultiVector 5 ℝ) (bb f2) = (-1 : ℝ) • bb f6 := by
    rw [op_bb_bb, if_pos (by decide), show bxor f4 f2 = f6 from by decide,
      show gpSign sigC f4.val f2.val = (-1 : ℤ) from by decide]
    norm_num
  rw [euc, euc, cga_e1, cga_e2, cga_e3]
  simp only [op_add_left, op_add_right, op_smul_left, op_smul_right,
    o11, o22, o44, o12, o21, o14, o41, o24, o42, smul_zero]
  rw [ebiv]
  module

theorem gp_ebiv_self (b12 b13 b23 : ℝ) :
    gp sigC (ebiv b12 b13 b23) (ebiv b12 b13 b23) =
      (-(b12 ^ 2 + b13 ^ 2 + b23 ^ 2)) • bb (bzero 5) := by
  have g33 : gp sigC (bb f3 : MultiVector 5 ℝ) (bb f3) = (-1 : ℝ) • bb (bzero 5) := by
    rw [gp_bb_bb, show bxor f3 f3 = bzero 5 from by decide,
      show gpSign sigC f3.val f3.val = (-1 : ℤ) from by decide]
    norm_num
  have g55 : gp sigC (bb f5 : MultiVector 5 ℝ) (bb f5) = (-1 : ℝ) • bb (bzero 5) := by
    rw [gp_bb_bb, show bxor f5 f5 = bzero 5 from by decide,
      show gpSign sigC f5.val f5.val = (-1 : ℤ) from by decide]
    norm_num
  have g66 : gp sigC (bb f6 : MultiVector 5 ℝ) (bb f6) = (-1 : ℝ) • bb (bzero 5) := by
    rw [gp_bb_bb, show bxor f6 f6 = bzero 5 from by decide,
      show gpSign sigC f6.val f6.val = (-1 : ℤ) from by decide]
    norm_num
  have g35 : gp sigC (bb f3 : MultiVector 5 ℝ) (bb f5) = (-1 : ℝ) • bb f6 := by
    rw [gp_bb_bb, show bxor f3 f5 = f6 from by decide,
      show gpSign sigC f3.val f5.val = (-1 : ℤ) from by decide]
    norm_num
  have g53 : gp sigC (bb f5 : MultiVector 5 ℝ) (bb f3) = (1 : ℝ) • bb f6 := by
    rw [gp_bb_bb, show bxor f5 f3 = f6 from by decide,
      show gpSign sigC f5.val f3.val = (1 : ℤ) from by decide]
    norm_num
  have g36 : gp sigC (bb f3 : MultiVector 5 ℝ) (bb f6) = (1 : ℝ) • bb f5 := by
    rw [gp_bb_bb, show bxor f3 f6 = f5 from by decide,
      show gpSign sigC f3.val f6.val = (1 : ℤ) from by decide]
    norm_num
  have g63 : gp sigC (bb f6 : MultiVector 5 ℝ) (bb f3) = (-1 : ℝ) • bb f5 := by
    rw [gp_bb_bb, show bxor f6 f3 = f5 from by decide,
      show gpSign sigC f6.val f3.val = (-1 : ℤ) from by decide]
    norm_num
  have g56 : gp sigC (bb f5 : MultiVector 5 ℝ) (bb f6) = (-1 : ℝ) • bb f3 := by
    rw [gp_bb_bb, show bxor f5 f6 = f3 from by decide,
      show gpSign sigC f5.val f6.val = (-1 : ℤ) from by decide]
    norm_num
  have g65 : gp sigC (bb f6 : MultiVector 5 ℝ) (bb f5) = (1 : ℝ) • bb f3 := by
    rw [gp_bb_bb, show bxor f6 f5 = f3 from by decide,
      show gpSign sigC f6.val f5.val = (1 : ℤ) from by decide]
    norm_num
  rw [ebiv]
  simp only [gp_add_left, gp_add_right, gp_smul_left, gp_smul_right,
    g33, g55, g66, g35, g53, g36, g63, g56, g65]
  module

theorem reverse_ebiv (b12 b13 b23 : ℝ) :
    reverse (ebiv b12 b13 b23) = -ebiv b12 b13 b23 := by
  have r3 := reverse_bb_two f3 (by decide)
  have r5 := reverse_bb_two f5 (by decide)
  have r6 := reverse_bb_two f6 (by decide)
  rw [ebiv]
  simp only [reverse_add, reverse_smul, r3, r5, r6]
  module

theorem magnitude_ebiv (b12 b13 b23 : ℝ) :
    magnitude (ebiv b12 b13 b23) = Real.sqrt (b12 ^ 2 + b13 ^ 2 + b23 ^ 2) := by
  rw [magnitude, reverse_ebiv, gp_neg_right, gp_ebiv_self]
  rw [Pi.neg_apply, Pi.smul_apply, bb_bzero_apply, smul_eq_mul, mul_one, neg_neg]
  rw [abs_of_nonneg (by positivity)]

theorem normal_ebiv_sq (b12 b13 b23 : ℝ) (hS : b12 ^ 2 + b13 ^ 2 + b23 ^ 2 ≠ 0) :
    gp sigC (normal (ebiv b12 b13 b23)) (normal (ebiv b12 b13 b23)) =
      (-1 : ℝ) • bb (bzero 5) := by
  have hpos : 0 < b12 ^ 2 + b13 ^ 2 + b23 ^ 2 :=
    lt_of_le_of_ne (by positivity) (Ne.symm hS)
  have hrtpos : 0 < Real.sqrt (b12 ^ 2 + b13 ^ 2 + b23 ^ 2) :=
    Real.sqrt_pos.mpr hpos
  rw [normal, magnitude_ebiv, gp_smul_left, gp_smul_right, gp_ebiv_self,
    smul_smul, smul_smul]
  congr 1
  rw [← Real.sqrt_mul_self (le_of_lt hpos)]
  field_simp

/-- The closed form of the spec's bivector exponential on unit bivectors:
for B̂ with B̂·B̂ = −1, `exp(t·B̂) = cos t + sin t · B̂` (the series fallback
agreeing at t = 0). -/
theorem expMv_simple (Bu : MultiVector 5 ℝ)
    (hB : gp sigC Bu Bu = (-1 : ℝ) • bb (bzero 5)) (t : ℝ) :
    expMv (t • Bu) = Real.cos t • scl 1 + Real.sin t • Bu := by
  have hs : gp sigC (t • Bu) (t • Bu) (bzero 5) = -(t ^ 2) := by
    rw [gp_smul_left, gp_smul_right, hB]
    simp only [Pi.smul_apply, smul_eq_mul, bb_bzero_apply]
    ring
  unfold expMv
  rw [hs]
  by_cases ht : t = 0
  · subst ht
    rw [if_neg (by norm_num)]
    rw [zero_smul, gp_zero_left]
    simp [Real.cos_zero, Real.sin_zero]
  · have h2 : 0 < t ^ 2 := lt_of_le_of_ne (sq_nonneg t) (Ne.symm (pow_ne_zero 2 ht))
    rw [if_pos (by linarith)]
    rw [neg_neg, Real.sqrt_sq_eq_abs, Real.cos_abs, smul_smul]
    have hsin : Real.sin |t| / |t| * t = Real.sin t := by
      rcases abs_cases t with ⟨h1, -⟩ | ⟨h1, -⟩
      · rw [h1]
        field_simp
      · rw [h1, Real.sin_neg]
        field_simp
    rw [hsin]

theorem minors_plane_biv (m1 m2 m3 n1 n2 n3 : ℝ) :
    plane_biv m1 m2 m3 n1 n2 n3 =
      ebiv (m1 * n2 - m2 * n1) (m1 * n3 - m3 * n1) (m2 * n3 - m3 * n2) := by
  rw [plane_biv, op_euc_euc]
  have e1 : m1 * (n2 - gsCoeff m1 m2 m3 n1 n2 n3 * m2) -
      m2 * (n1 - gsCoeff m1 m2 m3 n1 n2 n3 * m1) = m1 * n2 - m2 * n1 := by ring
  have e2 : m1 * (n3 - gsCoeff m1 m2 m3 n1 n2 n3 * m3) -
      m3 * (n1 - gsCoeff m1 m2 m3 n1 n2 n3 * m1) = m1 * n3 - m3 * n1 := by ring
  have e3 : m2 * (n3 - gsCoeff m1 m2 m3 n1 n2 n3 * m3) -
      m3 * (n2 - gsCoeff m1 m2 m3 n1 n2 n3 * m2) = m2 * n3 - m3 * n2 := by ring
  rw [e1, e2, e3]

/-- Linearly independent plane vectors have a nonzero spanned-bivector
square norm (some 2×2 minor survives). -/
theorem linIndep_minors {m1 m2 m3 n1 n2 n3 : ℝ}
    (h : linIndep m1 m2 m3 n1 n2 n3) :
    (m1 * n2 - m2 * n1) ^ 2 + (m1 * n3 - m3 * n1) ^ 2 +
      (m2 * n3 - m3 * n2) ^ 2 ≠ 0 := by
  intro hS0
  have h12 : m1 * n2 - m2 * n1 = 0 := by
    nlinarith [sq_nonneg (m1 * n2 - m2 * n1), sq_nonneg (m1 * n3 - m3 * n1),
      sq_nonneg (m2 * n3 - m3 * n2)]
  have h13 : m1 * n3 - m3 * n1 = 0 := by
    nlinarith [sq_nonneg (m1 * n2 - m2 * n1), sq_nonneg (m1 * n3 - m3 * n1),
      sq_nonneg (m2 * n3 - m3 * n2)]
  have h23 : m2 * n3 - m3 * n2 = 0 := by
    nlinarith [sq_nonneg (m1 * n2 - m2 * n1), sq_nonneg (m1 * n3 - m3 * n1),
      sq_nonneg (m2 * n3 - m3 * n2)]
  by_cases hm1 : m1 = 0
  · by_cases hm2 : m2 = 0
    · by_cases hm3 : m3 = 0
      · have hc := h 1 0 (by rw [hm1]; ring) (by rw [hm2]; ring) (by rw [hm3]; ring)
        exact one_ne_zero hc.1
      · have hc := h n3 (-m3) (by linear_combination h13) (by linear_combination h23)
          (by ring)
        exact hm3 (neg_eq_zero.mp hc.2)
    · have hc := h n2 (-m2) (by linear_combination h12) (by ring)
        (by linear_combination -h23)
      exact hm2 (neg_eq_zero.mp hc.2)
  · have hc := h n1 (-m1) (by ring) (by linear_combination -h12)
      (by linear_combination -h13)
    exact hm1 (neg_eq_zero.mp hc.2)

/-- The closed form of the rotation rotor under linear independence:
cos(θ/2) − sin(θ/2)·B̂, as recorded by the notebook. -/
theorem rot_rotor_closed (θ m1 m2 m3 n1 n2 n3 : ℝ)
    (h : linIndep m1 m2 m3 n1 n2 n3) :
    generate_rotation_rotor θ m1 m2 m3 n1 n2 n3 =
      Real.cos (θ / 2) • scl 1 -
        Real.sin (θ / 2) • normal (plane_biv m1 m2 m3 n1 n2 n3) := by
  have hB : gp sigC (normal (plane_biv m1 m2 m3 n1 n2 n3))
      (normal (plane_biv m1 m2 m3 n1 n2 n3)) = (-1 : ℝ) • bb (bzero 5) := by
    rw [minors_plane_biv]
    exact normal_ebiv_sq _ _ _ (linIndep_minors h)
  rw [generate_rotation_rotor, expMv_simple _ hB (-(θ / 2)), Real.cos_neg,
    Real.sin_neg, neg_smul, ← sub_eq_add_neg]

/-- A versor of the shape `c + s·B̂` with `c² + s² = 1` and a unit grade-2
part satisfies R·~R = 1. -/
theorem rotor_form_unit (c s : ℝ) (hcs : c ^ 2 + s ^ 2 = 1)
    (N : MultiVector 5 ℝ) (hN : gp sigC N N = (-1 : ℝ) • bb (bzero 5))
    (hrev : reverse N = -N) :
    gp sigC (c • scl 1 + s • N) (reverse (c • scl 1 + s • N)) = scl 1 := by
  rw [reverse_add, reverse_smul, reverse_smul, reverse_scl, hrev]
  rw [gp_add_left, gp_add_right, gp_add_right]
  simp only [gp_smul_left, gp_smul_right, gp_neg_right, gp_neg_left,
    gp_one_left, gp_one_right]
  rw [hN, scl_one_eq_bb]
  match_scalars
  · linear_combination hcs
  · ring

theorem normal_plane_biv_sq (m1 m2 m3 n1 n2 n3 : ℝ)
    (h : linIndep m1 m2 m3 n1 n2 n3) :
    gp sigC (normal (plane_biv m1 m2 m3 n1 n2 n3))
      (normal (plane_biv m1 m2 m3 n1 n2 n3)) = (-1 : ℝ) • bb (bzero 5) := by
  rw [minors_plane_biv]
  exact normal_ebiv_sq _ _ _ (linIndep_minors h)

theorem reverse_normal_plane_biv (m1 m2 m3 n1 n2 n3 : ℝ) :
    reverse (normal (plane_biv m1 m2 m3 n1 n2 n3)) =
      -normal (plane_biv m1 m2 m3 n1 n2 n3) := by
  rw [minors_plane_biv, normal, reverse_smul, reverse_ebiv, smul_neg]

/-- The rotation rotor is unitary: R·~R = 1. -/
theorem rot_rotor_unit (θ m1 m2 m3 n1 n2 n3 : ℝ)
    (h : linIndep m1 m2 m3 n1 n2 n3) :
    gp sigC (generate_rotation_rotor θ m1 m2 m3 n1 n2 n3)
      (reverse (generate_rotation_rotor θ m1 m2 m3 n1 n2 n3)) = scl 1 := by
  rw [rot_rotor_closed θ m1 m2 m3 n1 n2 n3 h, sub_eq_add_neg, ← neg_smul]
  exact rotor_form_unit _ _
    (by rw [neg_sq]; exact Real.cos_sq_add_sin_sq (θ / 2))
    _ (normal_plane_biv_sq m1 m2 m3 n1 n2 n3 h)
    (reverse_normal_plane_biv m1 m2 m3 n1 n2 n3)

theorem isBivector_ebiv (b12 b13 b23 : ℝ) : isBivector (ebiv b12 b13 b23) := by
  intro k hk
  rw [ebiv]
  by_cases h3 : k = f3
  · subst h3
    exact absurd (by decide : grade 5 f3.val = 2) hk
  by_cases h5 : k = f5
  · subst h5
    exact absurd (by decide : grade 5 f5.val = 2) hk
  by_cases h6 : k = f6
  · subst h6
    exact absurd (by decide : grade 5 f6.val = 2) hk
  simp [bb, Pi.add_apply, Pi.smul_apply, h3, h5, h6]

theorem isBivector_smul (r : ℝ) (X : MultiVector 5 ℝ) (hX : isBivector X) :
    isBivector (r • X) := by
  intro k hk
  rw [Pi.smul_apply, hX k hk, smul_zero]

theorem isBivector_normal_plane_biv (m1 m2 m3 n1 n2 n3 : ℝ) :
    isBivector (normal (plane_biv m1 m2 m3 n1 n2 n3)) := by
  rw [minors_plane_biv, normal]
  exact isBivector_smul _ _ (isBivector_ebiv _ _ _)

/-- C3 (amended): `generate_rotation_rotor(θ, m, n)` is `exp(−θ/2 · B̂)` for
the unit bivector B̂ spanning the orthogonalized plane vectors: B̂ is
grade 2, squares to −1, and the rotor has the closed form
cos(θ/2) − sin(θ/2)·B̂, matching the notebook's recorded rotor. -/
theorem C3_rotation_rotor (θ m1 m2 m3 n1 n2 n3 : ℝ)
    (h : linIndep m1 m2 m3 n1 n2 n3) :
    generate_rotation_rotor θ m1 m2 m3 n1 n2 n3 =
        expMv ((-(θ / 2)) • normal (plane_biv m1 m2 m3 n1 n2 n3)) ∧
      isBivector (normal (plane_biv m1 m2 m3 n1 n2 n3)) ∧
      gp sigC (normal (plane_biv m1 m2 m3 n1 n2 n3))
        (normal (plane_biv m1 m2 m3 n1 n2 n3)) = scl (-1) ∧
      generate_rotation_rotor θ m1 m2 m3 n1 n2 n3 =
        Real.cos (θ / 2) • scl 1 -
          Real.sin (θ / 2) • normal (plane_biv m1 m2 m3 n1 n2 n3) := by
  refine ⟨rfl, isBivector_normal_plane_biv m1 m2 m3 n1 n2 n3, ?_,
    rot_rotor_closed θ m1 m2 m3 n1 n2 n3 h⟩
  rw [normal_plane_biv_sq m1 m2 m3 n1 n2 n3 h, smul_bb_zero_eq_scl]

theorem C3_rotation_rotor_witness :
    generate_rotation_rotor Real.pi 1 0 0 0 0 1 =
        expMv ((-(Real.pi / 2)) • normal (plane_biv 1 0 0 0 0 1)) ∧
      isBivector (normal (plane_biv 1 0 0 0 0 1)) ∧
      gp sigC (normal (plane_biv 1 0 0 0 0 1))
        (normal (plane_biv 1 0 0 0 0 1)) = scl (-1) ∧
      generate_rotation_rotor Real.pi 1 0 0 0 0 1 =
        Real.cos (Real.pi / 2) • scl 1 -
          Real.sin (Real.pi / 2) • normal (plane_biv 1 0 0 0 0 1) :=
  C3_rotation_rotor Real.pi 1 0 0 0 0 1
    (fun a b h1 _ h3 => ⟨by simpa using h1, by simpa using h3⟩)

theorem ebiv010_eq : ebiv 0 1 0 = (bb f5 : MultiVector 5 ℝ) := by
  rw [ebiv]
  module

theorem gp_ebiv010_sq :
    gp sigC (ebiv 0 1 0) (ebiv 0 1 0) = (-1 : ℝ) • bb (bzero 5) := by
  have h := gp_ebiv_self 0 1 0
  have hc : (-((0 : ℝ) ^ 2 + 1 ^ 2 + 0 ^ 2)) = (-1 : ℝ) := by norm_num
  rw [hc] at h
  exact h

theorem normal_pb_e13 : normal (plane_biv 1 0 0 0 0 1) = ebiv 0 1 0 := by
  rw [minors_plane_biv]
  norm_num
  rw [normal, magnitude_ebiv,
    show ((0 : ℝ) ^ 2 + 1 ^ 2 + 0 ^ 2) = 1 from by norm_num, Real.sqrt_one,
    inv_one, one_smul]

/-- C3 counterexample: the claimed `exp(θ/2·B̂)` (the spec's words) differs
from the program's rotation rotor already at θ = π in the e1–e3 plane: the
e13 coefficients are −1 versus +1. -/
theorem C3_rotation_rotor_counterexample :
    generate_rotation_rotor Real.pi 1 0 0 0 0 1 ≠
      generate_rotation_rotor_spec Real.pi 1 0 0 0 0 1 := by
  intro h
  rw [generate_rotation_rotor, generate_rotation_rotor_spec, normal_pb_e13,
    expMv_simple _ gp_ebiv010_sq (-(Real.pi / 2)),
    expMv_simple _ gp_ebiv010_sq (Real.pi / 2)] at h
  have h5 := congrFun h f5
  rw [Real.cos_neg, Real.sin_neg, Real.cos_pi_div_two, Real.sin_pi_div_two] at h5
  simp only [Pi.add_apply, Pi.smul_apply, smul_eq_mul, scl, ebiv, bb,
    Pi.neg_apply, f3, f5, f6] at h5
  norm_num at h5

theorem rotor_mul (X Y : MultiVector 5 ℝ)
    (hX : gp sigC X (reverse X) = scl 1) (hY : gp sigC Y (reverse Y) = scl 1) :
    gp sigC (gp sigC X Y) (reverse (gp sigC X Y)) = scl 1 := by
  rw [reverse_gp (show sigC.length = 5 from rfl), gp_assoc,
    ← gp_assoc sigC Y (reverse Y) (reverse X), hY, gp_one_left, hX]

theorem normal_of_unit (X : MultiVector 5 ℝ)
    (hX : gp sigC X (reverse X) = scl 1) : normal X = X := by
  rw [normal, magnitude, hX, scl_bzero_apply, abs_one, Real.sqrt_one, inv_one,
    one_smul]

/-- C4: every rotor produced by the generators — rotation rotors, translation
rotors, and their normalized products — satisfies R·~R = 1. -/
theorem C4_rotor_unitarity :
    (∀ θ m1 m2 m3 n1 n2 n3 : ℝ, linIndep m1 m2 m3 n1 n2 n3 →
      gp sigC (generate_rotation_rotor θ m1 m2 m3 n1 n2 n3)
        (reverse (generate_rotation_rotor θ m1 m2 m3 n1 n2 n3)) = scl 1)
    ∧ (∀ d1 d2 d3 : ℝ,
      gp sigC (generate_translation_rotor d1 d2 d3)
        (reverse (generate_translation_rotor d1 d2 d3)) = scl 1)
    ∧ (∀ θ m1 m2 m3 n1 n2 n3 d1 d2 d3 : ℝ, linIndep m1 m2 m3 n1 n2 n3 →
      normal (gp sigC (generate_translation_rotor d1 d2 d3)
          (generate_rotation_rotor θ m1 m2 m3 n1 n2 n3)) =
        gp sigC (generate_translation_rotor d1 d2 d3)
          (generate_rotation_rotor θ m1 m2 m3 n1 n2 n3) ∧
      gp sigC
        (normal (gp sigC (generate_translation_rotor d1 d2 d3)
          (generate_rotation_rotor θ m1 m2 m3 n1 n2 n3)))
        (reverse (normal (gp sigC (generate_translation_rotor d1 d2 d3)
          (generate_rotation_rotor θ m1 m2 m3 n1 n2 n3)))) = scl 1) := by
  refine ⟨rot_rotor_unit, trans_rotor_unit, ?_⟩
  intro θ m1 m2 m3 n1 n2 n3 d1 d2 d3 h
  have hprod := rotor_mul _ _ (trans_rotor_unit d1 d2 d3)
    (rot_rotor_unit θ m1 m2 m3 n1 n2 n3 h)
  have hnorm := normal_of_unit _ hprod
  exact ⟨hnorm, by rw [hnorm]; exact hprod⟩

theorem C4_rotor_unitarity_witness :
    gp sigC (generate_rotation_rotor Real.pi 1 0 0 0 0 1)
        (reverse (generate_rotation_rotor Real.pi 1 0 0 0 0 1)) = scl 1 ∧
      gp sigC (generate_translation_rotor 5 (-2) 3)
        (reverse (generate_translation_rotor 5 (-2) 3)) = scl 1 ∧
      gp sigC
        (normal (gp sigC (generate_translation_rotor 5 (-2) 3)
          (generate_rotation_rotor Real.pi 1 0 0 0 0 1)))
        (reverse (normal (gp sigC (generate_translation_rotor 5 (-2) 3)
          (generate_rotation_rotor Real.pi 1 0 0 0 0 1)))) = scl 1 :=
  ⟨C4_rotor_unitarity.1 Real.pi 1 0 0 0 0 1
      (fun a b h1 _ h3 => ⟨by simpa using h1, by simpa using h3⟩),
    C4_rotor_unitarity.2.1 5 (-2) 3,
    (C4_rotor_unitarity.2.2 Real.pi 1 0 0 0 0 1 5 (-2) 3
      (fun a b h1 _ h3 => ⟨by simpa using h1, by simpa using h3⟩)).2⟩

theorem sandwich_one (L : MultiVector 5 ℝ) : sandwich (scl 1) L = L := by
  rw [sandwich, reverse_scl, gp_one_left, gp_one_right]

theorem expMv_zero : expMv (0 : MultiVector 5 ℝ) = scl 1 := by
  unfold expMv
  rw [gp_zero_left]
  simp

/-- C1 (amended): for conformal objects related by a rigid motion (a rotor
that is the exponential of a bivector carrying L2 to L1 by the sandwich
action), `interp_objects_root` reproduces L2 at alpha = 0 and L1 at
alpha = 1 — the endpoint orientation recorded by the notebook's
interpolation trace. -/
theorem C1_interp_endpoints (L1 L2 : MultiVector 5 ℝ)
    (h : ∃ B, isBivector B ∧ sandwich (expMv B) L2 = L1) :
    interp_objects_root L1 L2 0 = L2 ∧ interp_objects_root L1 L2 1 = L1 := by
  constructor
  · rw [interp_objects_root, zero_smul, expMv_zero, sandwich_one]
  · rw [interp_objects_root, one_smul, rotor_between, dif_pos h]
    have hex : ∃ B, isBivector B ∧ expMv B = expMv h.choose :=
      ⟨h.choose, h.choose_spec.1, rfl⟩
    have hlog : expMv (logRotor (expMv h.choose)) = expMv h.choose := by
      rw [logRotor, dif_pos hex]
      exact hex.choose_spec.2
    rw [hlog]
    exact h.choose_spec.2

theorem C1_interp_endpoints_witness :
    interp_objects_root cga_e1 cga_e1 0 = cga_e1 ∧
      interp_objects_root cga_e1 cga_e1 1 = cga_e1 :=
  C1_interp_endpoints cga_e1 cga_e1
    ⟨0, fun _ _ => rfl, by rw [expMv_zero, sandwich_one]⟩

/-- C1 counterexample: e1 and −e1 are related by a rigid motion (the rotor
exp(π/2·e13) carries e1 to −e1), yet the interpolation at alpha = 0 yields
−e1 (= L2), not L1 as the claim states. -/
theorem C1_interp_endpoints_counterexample :
    (∃ B, isBivector B ∧ sandwich (expMv B) cga_e1 = -cga_e1) ∧
      ¬interp_objects_root cga_e1 (-cga_e1) 0 = cga_e1 := by
  constructor
  · refine ⟨(Real.pi / 2) • ebiv 0 1 0,
      isBivector_smul _ _ (isBivector_ebiv 0 1 0), ?_⟩
    have g51 : gp sigC (bb f5 : MultiVector 5 ℝ) (bb f1) = (-1 : ℝ) • bb f4 := by
      rw [gp_bb_bb, show bxor f5 f1 = f4 from by decide,
        show gpSign sigC f5.val f1.val = (-1 : ℤ) from by decide]
      norm_num
    have g45 : gp sigC (bb f4 : MultiVector 5 ℝ) (bb f5) = (-1 : ℝ) • bb f1 := by
      rw [gp_bb_bb, show bxor f4 f5 = f1 from by decide,
        show gpSign sigC f4.val f5.val = (-1 : ℤ) from by decide]
      norm_num
    rw [expMv_simple _ gp_ebiv010_sq (Real.pi / 2), Real.cos_pi_div_two,
      Real.sin_pi_div_two, zero_smul, one_smul, zero_add, ebiv010_eq,
      sandwich, cga_e1, g51, reverse_bb_two f5 (by decide), gp_smul_left,
      gp_neg_right, g45]
    module
  · intro h
    rw [interp_objects_root, zero_smul, expMv_zero, sandwich_one] at h
    have h1 := congrFun h f1
    rw [cga_e1] at h1
    simp only [Pi.neg_apply, bb, if_pos rfl] at h1
    norm_num at h1

/-- C9: `build_layout` fails with `InvalidSignatureError` on any non-±1
entry, with `UnsupportedDimensionError` on dimensions beyond the practical
bound, and succeeds with a Layout on every valid signature. -/
theorem C9_build_layout :
    (∀ sig : List ℤ, (∃ s ∈ sig, s ≠ 1 ∧ s ≠ -1) →
      build_layout sig = Except.error LayoutError.invalidSignature)
    ∧ (∀ sig : List ℤ, (∀ s ∈ sig, s = 1 ∨ s = -1) → maxDim < sig.length →
      build_layout sig = Except.error LayoutError.unsupportedDimension)
    ∧ (∀ sig : List ℤ, (∀ s ∈ sig, s = 1 ∨ s = -1) → sig.length ≤ maxDim →
      ∃ L : Layout, build_layout sig = Except.ok L ∧
        L.dimension = sig.length ∧ L.signature = sig ∧
        ∀ a b : Nat, L.table a b = (a ^^^ b, gpSign sig a b)) := by
  refine ⟨?_, ?_, ?_⟩
  · rintro sig ⟨s, hs, h1, h2⟩
    rw [build_layout, if_pos]
    intro hall
    rcases hall s hs with h | h
    · exact h1 h
    · exact h2 h
  · intro sig hall hlen
    rw [build_layout, if_neg (not_not_intro hall), if_pos hlen]
  · intro sig hall hlen
    have hb : build_layout sig =
        Except.ok ⟨sig.length, sig, fun a b => (a ^^^ b, gpSign sig a b)⟩ := by
      rw [build_layout, if_neg (not_not_intro hall), if_neg (not_lt.mpr hlen)]
    exact ⟨_, hb, rfl, rfl, fun a b => rfl⟩

theorem C9_build_layout_witness :
    build_layout [2] = Except.error LayoutError.invalidSignature ∧
      build_layout (List.replicate 11 1) =
        Except.error LayoutError.unsupportedDimension ∧
      ∃ L : Layout, build_layout [1, 1] = Except.ok L ∧
        L.dimension = 2 ∧ L.signature = [1, 1] ∧
        ∀ a b : Nat, L.table a b = (a ^^^ b, gpSign [1, 1] a b) :=
  ⟨C9_build_layout.1 [2] ⟨2, by decide, by decide, by decide⟩,
    C9_build_layout.2.1 (List.replicate 11 1) (by decide) (by decide),
    C9_build_layout.2.2 [1, 1] (by decide) (by decide)⟩

theorem filter_ne_zero_range (K : Nat) :
    ((List.range (K + 1)).filter (fun m => m != 0)) =
      (List.range K).map Nat.succ := by
  rw [List.range_succ_eq_map, List.filter_cons, if_neg (by decide),
    List.filter_map]
  have hcomp : ((fun m => m != 0) ∘ Nat.succ) = fun _ => true := by
    funext x
    simp
  rw [hcomp, List.filter_true]

theorem bladesMap_length (n : Nat) (R : Type) [CommRing R] :
    (bladesMap n R).length = 2 ^ n - 1 := by
  rw [bladesMap, List.length_map]
  have h2 : (2 : ℕ) ^ n = (2 ^ n - 1) + 1 :=
    (Nat.succ_pred_eq_of_pos (Nat.two_pow_pos n)).symm
  rw [h2, filter_ne_zero_range, List.length_map, List.length_range]
  omega

/-- C10: the blades mapping returned at construction has exactly 2^n − 1
entries — one for each non-scalar basis blade, keyed by the canonical name
and valued at that basis blade — and the scalar blade has no entry. -/
theorem C10_blades_mapping (n : Nat) (R : Type) [CommRing R] [Nontrivial R] :
    (bladesMap n R).length = 2 ^ n - 1
    ∧ (∀ m : Nat, 0 < m → m < 2 ^ n →
        (bladeName n m, (bbm m : MultiVector n R)) ∈ bladesMap n R)
    ∧ (∀ p ∈ bladesMap n R, ∃ m : Nat, 0 < m ∧ m < 2 ^ n ∧
        p = (bladeName n m, bbm m))
    ∧ (∀ s : String, (s, (bbm 0 : MultiVector n R)) ∉ bladesMap n R) := by
  refine ⟨bladesMap_length n R, ?_, ?_, ?_⟩
  · intro m hm0 hmn
    rw [bladesMap]
    apply List.mem_map.mpr
    refine ⟨m, ?_, rfl⟩
    rw [List.mem_filter]
    exact ⟨List.mem_range.mpr hmn, by simpa using Nat.pos_iff_ne_zero.mp hm0⟩
  · intro p hp
    rw [bladesMap] at hp
    rcases List.mem_map.mp hp with ⟨m, hm, rfl⟩
    rcases List.mem_filter.mp hm with ⟨hmr, hne⟩
    exact ⟨m, Nat.pos_of_ne_zero (by simpa using hne), List.mem_range.mp hmr, rfl⟩
  · intro s hmem
    rw [bladesMap] at hmem
    rcases List.mem_map.mp hmem with ⟨m, hm, heq⟩
    rcases List.mem_filter.mp hm with ⟨-, hne⟩
    have hm0 : m ≠ 0 := by simpa using hne
    have hbb : (bbm m : MultiVector n R) = bbm 0 := congrArg Prod.snd heq
    have h1 : (bbm 0 : MultiVector n R) (bzero n) = 1 := by
      rw [bbm, if_pos (show (bzero n).val = 0 from rfl)]
    have h0 : (bbm m : MultiVector n R) (bzero n) = 0 := by
      rw [bbm, if_neg]
      intro hc
      exact hm0 (by rw [← hc]; rfl)
    rw [hbb, h1] at h0
    exact one_ne_zero h0

theorem C10_blades_mapping_witness :
    (bladesMap 2 ℝ).length = 3 ∧
      ("e12", (bbm 3 : MultiVector 2 ℝ)) ∈ bladesMap 2 ℝ ∧
      ("e", (bbm 0 : MultiVector 2 ℝ)) ∉ bladesMap 2 ℝ := by
  have h := C10_blades_mapping 2 ℝ
  refine ⟨h.1, ?_, h.2.2.2 "e"⟩
  have hm := h.2.1 3 (by norm_num) (by norm_num)
  have hname : bladeName 2 3 = "e12" := by decide
  rw [hname] at hm
  exact hm

end Clifford
